import Mathlib

/-!
# gosymbols: a shallow embedding of `gosymbols/gosymbols.go` and `main.go`

The development follows the source top to bottom:

* the pieces of the Go standard library the program relies on (`unicode`, `strings`,
  `path/filepath` on a Unix system, `go/token`, `go/ast`, `go/parser`,
  `go/build`), each modelled after its documented behaviour;
* `symbol`, `visitor` and `visitor.Visit`;
* `allPackages` / `walkDir` and `forEachPackage`;
* `DoCoreMain` and `main`;
* an interleaving model of the goroutines started by `DoCoreMain`;
* directory trees described by the names of their entries, against which the crawl and the
  path arithmetic of the program are checked.
-/

namespace GoSymbols

/-! ## Package `strings` -/

/-- The lowercase mapping of package `unicode` (the simple lowercase mapping of the Unicode
character database, version 14), as ranges `(lo, hi, stride, target)`: the code points `lo`,
`lo + stride`, ... up to `hi` map to `target`, `target + stride`, ... -/
def caseRanges : List (Nat × Nat × Nat × Nat) :=
  [(0x41, 0x5A, 1, 0x61), (0xC0, 0xD6, 1, 0xE0), (0xD8, 0xDE, 1, 0xF8), (0x100, 0x12E, 2, 0x101),
   (0x130, 0x130, 1, 0x69), (0x132, 0x136, 2, 0x133), (0x139, 0x147, 2, 0x13A),
   (0x14A, 0x176, 2, 0x14B), (0x178, 0x178, 1, 0xFF), (0x179, 0x17D, 2, 0x17A),
   (0x181, 0x181, 1, 0x253), (0x182, 0x184, 2, 0x183), (0x186, 0x186, 1, 0x254),
   (0x187, 0x187, 1, 0x188), (0x189, 0x18A, 1, 0x256), (0x18B, 0x18B, 1, 0x18C),
   (0x18E, 0x18E, 1, 0x1DD), (0x18F, 0x18F, 1, 0x259), (0x190, 0x190, 1, 0x25B),
   (0x191, 0x191, 1, 0x192), (0x193, 0x193, 1, 0x260), (0x194, 0x194, 1, 0x263),
   (0x196, 0x196, 1, 0x269), (0x197, 0x197, 1, 0x268), (0x198, 0x198, 1, 0x199),
   (0x19C, 0x19C, 1, 0x26F), (0x19D, 0x19D, 1, 0x272), (0x19F, 0x19F, 1, 0x275),
   (0x1A0, 0x1A4, 2, 0x1A1), (0x1A6, 0x1A6, 1, 0x280), (0x1A7, 0x1A7, 1, 0x1A8),
   (0x1A9, 0x1A9, 1, 0x283), (0x1AC, 0x1AC, 1, 0x1AD), (0x1AE, 0x1AE, 1, 0x288),
   (0x1AF, 0x1AF, 1, 0x1B0), (0x1B1, 0x1B2, 1, 0x28A), (0x1B3, 0x1B5, 2, 0x1B4),
   (0x1B7, 0x1B7, 1, 0x292), (0x1B8, 0x1B8, 1, 0x1B9), (0x1BC, 0x1BC, 1, 0x1BD),
   (0x1C4, 0x1C4, 1, 0x1C6), (0x1C5, 0x1C5, 1, 0x1C6), (0x1C7, 0x1C7, 1, 0x1C9),
   (0x1C8, 0x1C8, 1, 0x1C9), (0x1CA, 0x1CA, 1, 0x1CC), (0x1CB, 0x1DB, 2, 0x1CC),
   (0x1DE, 0x1EE, 2, 0x1DF), (0x1F1, 0x1F1, 1, 0x1F3), (0x1F2, 0x1F4, 2, 0x1F3),
   (0x1F6, 0x1F6, 1, 0x195), (0x1F7, 0x1F7, 1, 0x1BF), (0x1F8, 0x21E, 2, 0x1F9),
   (0x220, 0x220, 1, 0x19E), (0x222, 0x232, 2, 0x223), (0x23A, 0x23A, 1, 0x2C65),
   (0x23B, 0x23B, 1, 0x23C), (0x23D, 0x23D, 1, 0x19A), (0x23E, 0x23E, 1, 0x2C66),
   (0x241, 0x241, 1, 0x242), (0x243, 0x243, 1, 0x180), (0x244, 0x244, 1, 0x289),
   (0x245, 0x245, 1, 0x28C), (0x246, 0x24E, 2, 0x247), (0x370, 0x372, 2, 0x371),
   (0x376, 0x376, 1, 0x377), (0x37F, 0x37F, 1, 0x3F3), (0x386, 0x386, 1, 0x3AC),
   (0x388, 0x38A, 1, 0x3AD), (0x38C, 0x38C, 1, 0x3CC), (0x38E, 0x38F, 1, 0x3CD),
   (0x391, 0x3A1, 1, 0x3B1), (0x3A3, 0x3AB, 1, 0x3C3), (0x3CF, 0x3CF, 1, 0x3D7),
   (0x3D8, 0x3EE, 2, 0x3D9), (0x3F4, 0x3F4, 1, 0x3B8), (0x3F7, 0x3F7, 1, 0x3F8),
   (0x3F9, 0x3F9, 1, 0x3F2), (0x3FA, 0x3FA, 1, 0x3FB), (0x3FD, 0x3FF, 1, 0x37B),
   (0x400, 0x40F, 1, 0x450), (0x410, 0x42F, 1, 0x430), (0x460, 0x480, 2, 0x461),
   (0x48A, 0x4BE, 2, 0x48B), (0x4C0, 0x4C0, 1, 0x4CF), (0x4C1, 0x4CD, 2, 0x4C2),
   (0x4D0, 0x52E, 2, 0x4D1), (0x531, 0x556, 1, 0x561), (0x10A0, 0x10C5, 1, 0x2D00),
   (0x10C7, 0x10C7, 1, 0x2D27), (0x10CD, 0x10CD, 1, 0x2D2D), (0x13A0, 0x13EF, 1, 0xAB70),
   (0x13F0, 0x13F5, 1, 0x13F8), (0x1C90, 0x1CBA, 1, 0x10D0), (0x1CBD, 0x1CBF, 1, 0x10FD),
   (0x1E00, 0x1E94, 2, 0x1E01), (0x1E9E, 0x1E9E, 1, 0xDF), (0x1EA0, 0x1EFE, 2, 0x1EA1),
   (0x1F08, 0x1F0F, 1, 0x1F00), (0x1F18, 0x1F1D, 1, 0x1F10), (0x1F28, 0x1F2F, 1, 0x1F20),
   (0x1F38, 0x1F3F, 1, 0x1F30), (0x1F48, 0x1F4D, 1, 0x1F40), (0x1F59, 0x1F5F, 2, 0x1F51),
   (0x1F68, 0x1F6F, 1, 0x1F60), (0x1F88, 0x1F8F, 1, 0x1F80), (0x1F98, 0x1F9F, 1, 0x1F90),
   (0x1FA8, 0x1FAF, 1, 0x1FA0), (0x1FB8, 0x1FB9, 1, 0x1FB0), (0x1FBA, 0x1FBB, 1, 0x1F70),
   (0x1FBC, 0x1FBC, 1, 0x1FB3), (0x1FC8, 0x1FCB, 1, 0x1F72), (0x1FCC, 0x1FCC, 1, 0x1FC3),
   (0x1FD8, 0x1FD9, 1, 0x1FD0), (0x1FDA, 0x1FDB, 1, 0x1F76), (0x1FE8, 0x1FE9, 1, 0x1FE0),
   (0x1FEA, 0x1FEB, 1, 0x1F7A), (0x1FEC, 0x1FEC, 1, 0x1FE5), (0x1FF8, 0x1FF9, 1, 0x1F78),
   (0x1FFA, 0x1FFB, 1, 0x1F7C), (0x1FFC, 0x1FFC, 1, 0x1FF3), (0x2126, 0x2126, 1, 0x3C9),
   (0x212A, 0x212A, 1, 0x6B), (0x212B, 0x212B, 1, 0xE5), (0x2132, 0x2132, 1, 0x214E),
   (0x2160, 0x216F, 1, 0x2170), (0x2183, 0x2183, 1, 0x2184), (0x24B6, 0x24CF, 1, 0x24D0),
   (0x2C00, 0x2C2F, 1, 0x2C30), (0x2C60, 0x2C60, 1, 0x2C61), (0x2C62, 0x2C62, 1, 0x26B),
   (0x2C63, 0x2C63, 1, 0x1D7D), (0x2C64, 0x2C64, 1, 0x27D), (0x2C67, 0x2C6B, 2, 0x2C68),
   (0x2C6D, 0x2C6D, 1, 0x251), (0x2C6E, 0x2C6E, 1, 0x271), (0x2C6F, 0x2C6F, 1, 0x250),
   (0x2C70, 0x2C70, 1, 0x252), (0x2C72, 0x2C72, 1, 0x2C73), (0x2C75, 0x2C75, 1, 0x2C76),
   (0x2C7E, 0x2C7F, 1, 0x23F), (0x2C80, 0x2CE2, 2, 0x2C81), (0x2CEB, 0x2CED, 2, 0x2CEC),
   (0x2CF2, 0x2CF2, 1, 0x2CF3), (0xA640, 0xA66C, 2, 0xA641), (0xA680, 0xA69A, 2, 0xA681),
   (0xA722, 0xA72E, 2, 0xA723), (0xA732, 0xA76E, 2, 0xA733), (0xA779, 0xA77B, 2, 0xA77A),
   (0xA77D, 0xA77D, 1, 0x1D79), (0xA77E, 0xA786, 2, 0xA77F), (0xA78B, 0xA78B, 1, 0xA78C),
   (0xA78D, 0xA78D, 1, 0x265), (0xA790, 0xA792, 2, 0xA791), (0xA796, 0xA7A8, 2, 0xA797),
   (0xA7AA, 0xA7AA, 1, 0x266), (0xA7AB, 0xA7AB, 1, 0x25C), (0xA7AC, 0xA7AC, 1, 0x261),
   (0xA7AD, 0xA7AD, 1, 0x26C), (0xA7AE, 0xA7AE, 1, 0x26A), (0xA7B0, 0xA7B0, 1, 0x29E),
   (0xA7B1, 0xA7B1, 1, 0x287), (0xA7B2, 0xA7B2, 1, 0x29D), (0xA7B3, 0xA7B3, 1, 0xAB53),
   (0xA7B4, 0xA7C2, 2, 0xA7B5), (0xA7C4, 0xA7C4, 1, 0xA794), (0xA7C5, 0xA7C5, 1, 0x282),
   (0xA7C6, 0xA7C6, 1, 0x1D8E), (0xA7C7, 0xA7C9, 2, 0xA7C8), (0xA7D0, 0xA7D0, 1, 0xA7D1),
   (0xA7D6, 0xA7D8, 2, 0xA7D7), (0xA7F5, 0xA7F5, 1, 0xA7F6), (0xFF21, 0xFF3A, 1, 0xFF41),
   (0x10400, 0x10427, 1, 0x10428), (0x104B0, 0x104D3, 1, 0x104D8), (0x10570, 0x1057A, 1, 0x10597),
   (0x1057C, 0x1058A, 1, 0x105A3), (0x1058C, 0x10592, 1, 0x105B3), (0x10594, 0x10595, 1, 0x105BB),
   (0x10C80, 0x10CB2, 1, 0x10CC0), (0x118A0, 0x118BF, 1, 0x118C0), (0x16E40, 0x16E5F, 1, 0x16E60),
   (0x1E900, 0x1E921, 1, 0x1E922)]

/-- Whether a code point is one of the code points of a range. -/
def inRange (n : Nat) (r : Nat × Nat × Nat × Nat) : Bool :=
  decide (r.1 ≤ n) && decide (n ≤ r.2.1) && (n - r.1) % r.2.2.1 == 0

/-- Go `unicode.ToLower` on code points: the target in the range that has the code point, the
code point itself when no range has it. -/
def lowerNat (n : Nat) : Nat :=
  match caseRanges.find? (inRange n) with
  | some r => n - r.1 + r.2.2.2
  | none => n

/-- Go `unicode.ToLower`. -/
def unicodeLower (c : Char) : Char := Char.ofNat (lowerNat c.toNat)

/-- Go `strings.ToLower`: every character mapped to its lower case. -/
def ToLower (s : String) : String := ⟨s.data.map unicodeLower⟩

/-- Two ranges of which the first has no target among the code points of the second: the
targets end before the second starts or start after it ends, or they lie between the code
points of a second range of stride 2. -/
def apart (r s : Nat × Nat × Nat × Nat) : Bool :=
  Nat.blt (r.2.2.2 + (r.2.1 - r.1)) s.1 || Nat.blt s.2.1 r.2.2.2
    || (Nat.beq s.2.2.1 2 && (Nat.beq r.2.2.1 2 || Nat.beq r.1 r.2.1)
        && Nat.beq ((r.2.2.2 + s.1) % 2) 1)

/-- Prefix test on character lists. -/
def hasPrefixL : List Char → List Char → Bool
  | _, [] => true
  | [], _ :: _ => false
  | c :: cs, p :: ps => c == p && hasPrefixL cs ps

/-- Substring test on character lists: some suffix of the first list starts with the second. -/
def containsL : List Char → List Char → Bool
  | [], sub => hasPrefixL [] sub
  | c :: cs, sub => hasPrefixL (c :: cs) sub || containsL cs sub

/-- Go `strings.HasPrefix`. -/
def HasPrefix (s pre : String) : Bool := hasPrefixL s.data pre.data

/-- Go `strings.HasSuffix`. -/
def HasSuffix (s suf : String) : Bool := hasPrefixL s.data.reverse suf.data.reverse

/-- Go `strings.Contains`. -/
def Contains (s substr : String) : Bool := containsL s.data substr.data

/-- Go `strings.TrimPrefix`: `s` without the leading `pre`, or `s` itself when it does not
start with `pre`. -/
def TrimPrefix (s pre : String) : String :=
  if HasPrefix s pre then ⟨s.data.drop pre.data.length⟩ else s

/-! ## The output record -/

/-- The `symbol` struct (gosymbols.go:17-24). -/
structure symbol where
  Name : String
  Kind : String
  Package : String
  Path : String
  Line : Int
  Character : Int
deriving DecidableEq, Repr

/-! ## Packages `go/token` and `go/ast` -/

/-- A `token.File`: its name and the line of a position (`(*token.File).Line`). -/
structure TokenFile where
  Name : String
  Line : Nat → Int

/-- A `token.FileSet`, seen through `(*token.FileSet).File`. -/
structure FileSet where
  File : Nat → TokenFile

/-- An `ast.Ident`: its name and the position returned by `Pos()`. -/
structure Ident where
  Name : String
  NamePos : Nat
deriving DecidableEq, Repr

/-- The syntax nodes of `go/ast` that matter to the traversal. `FuncDecl`, `GenDecl`, `TypeSpec`,
`ValueSpec`, `InterfaceType`, `FuncLit` and `DeclStmt` are the Go node types of the same name;
`Other` stands for every remaining node type (block statements, struct types, expressions, ...)
with its children in traversal order. -/
inductive Node where
  | IdentNode (id : Ident)
  | FuncDecl (Name : Ident) (parts : List Node)
  | GenDecl (Specs : List Node)
  | TypeSpec (Name : Ident) (Typ : Node)
  | ValueSpec (Names : List Ident) (Values : List Node)
  | InterfaceType (Methods : List Node)
  | FuncLit (Body : List Node)
  | DeclStmt (Decl : Node)
  | FileNode (Name : Ident) (Decls : List Node)
  | Other (children : List Node)

/-- An `ast.File`: the package clause's identifier and the top-level declarations. -/
structure File where
  Name : Ident
  Decls : List Node

/-- The file as a syntax node, as handed to `ast.Inspect`. -/
def File.node (f : File) : Node := .FileNode f.Name f.Decls

/-- An `ast.Package`: its name and its files, keyed by file name. -/
structure Package where
  Name : String
  Files : List (String × File)

/-! ## The visitor (gosymbols.go:29-69) -/

/-- The `visitor` struct. -/
structure visitor where
  pkg : Package
  fset : FileSet
  query : String
  syms : List symbol

/-- The type switch of `Visit` (gosymbols.go:39-54): the identifier, the kind and the value of
`descend` after the switch. A nil node, and a node of any other type, leave `ident` nil. -/
def visitSwitch : Option Node → Option Ident × String × Bool
  | some (.FuncDecl Name _) => (some Name, "func", false)
  | some (.TypeSpec Name (.InterfaceType _)) => (some Name, "interface", false)
  | some (.TypeSpec Name _) => (some Name, "type", false)
  | _ => (none, "", true)

/-- The method `(*visitor).Visit` (gosymbols.go:36-69): the visitor after the call and the
returned `descend`. -/
def visitor.Visit (v : visitor) (node : Option Node) : visitor × Bool :=
  match visitSwitch node with
  | (some ident, kind, descend) =>
    if Contains (ToLower ident.Name) v.query then
      let f := v.fset.File ident.NamePos
      ({ v with syms := v.syms ++ [{ Package := v.pkg.Name, Path := f.Name, Name := ident.Name,
                                     Kind := kind, Line := f.Line ident.NamePos - 1,
                                     Character := 0 }] }, descend)
    else (v, descend)
  | (none, _, descend) => (v, descend)

/-- Walking an identifier child: `Visit` on the identifier, which has no children, then
`Visit(nil)`. -/
def walkIdent (v : visitor) (id : Ident) : visitor :=
  match v.Visit (some (.IdentNode id)) with
  | (v1, true) => (v1.Visit none).1
  | (v1, false) => v1

/-- Walking a list of identifier children. -/
def walkIdentList (v : visitor) : List Ident → visitor
  | [] => v
  | id :: ids => walkIdentList (walkIdent v id) ids

mutual
/-- The call `ast.Inspect(n, v.Visit)`, that is `ast.Walk` with the inspector of `v.Visit`: visit
the node; when the visit returns true, walk the children in order and then visit nil. -/
def Inspect (v : visitor) : Node → visitor
  | .IdentNode id =>
    match v.Visit (some (.IdentNode id)) with
    | (v1, true) => (v1.Visit none).1
    | (v1, false) => v1
  | .FuncDecl Name parts =>
    match v.Visit (some (.FuncDecl Name parts)) with
    | (v1, true) => ((InspectList (walkIdent v1 Name) parts).Visit none).1
    | (v1, false) => v1
  | .GenDecl Specs =>
    match v.Visit (some (.GenDecl Specs)) with
    | (v1, true) => ((InspectList v1 Specs).Visit none).1
    | (v1, false) => v1
  | .TypeSpec Name Typ =>
    match v.Visit (some (.TypeSpec Name Typ)) with
    | (v1, true) => ((Inspect (walkIdent v1 Name) Typ).Visit none).1
    | (v1, false) => v1
  | .ValueSpec Names Values =>
    match v.Visit (some (.ValueSpec Names Values)) with
    | (v1, true) => ((InspectList (walkIdentList v1 Names) Values).Visit none).1
    | (v1, false) => v1
  | .InterfaceType Methods =>
    match v.Visit (some (.InterfaceType Methods)) with
    | (v1, true) => ((InspectList v1 Methods).Visit none).1
    | (v1, false) => v1
  | .FuncLit Body =>
    match v.Visit (some (.FuncLit Body)) with
    | (v1, true) => ((InspectList v1 Body).Visit none).1
    | (v1, false) => v1
  | .DeclStmt Decl =>
    match v.Visit (some (.DeclStmt Decl)) with
    | (v1, true) => ((Inspect v1 Decl).Visit none).1
    | (v1, false) => v1
  | .FileNode Name Decls =>
    match v.Visit (some (.FileNode Name Decls)) with
    | (v1, true) => ((InspectList (walkIdent v1 Name) Decls).Visit none).1
    | (v1, false) => v1
  | .Other children =>
    match v.Visit (some (.Other children)) with
    | (v1, true) => ((InspectList v1 children).Visit none).1
    | (v1, false) => v1
/-- Walking a list of children in order. -/
def InspectList (v : visitor) : List Node → visitor
  | [] => v
  | n :: ns => InspectList (Inspect v n) ns
end

/-! ## Package `path/filepath` (Unix: the separator is `/`, the list separator is `:`) -/

/-- Splitting a character list at every occurrence of `sep` (Go `strings.Split` with a
one-character separator): `n` separators give `n + 1` pieces. -/
def splitChar (sep : Char) : List Char → List (List Char)
  | [] => [[]]
  | c :: cs =>
    if c = sep then [] :: splitChar sep cs
    else match splitChar sep cs with
      | [] => [[c]]
      | x :: xs => (c :: x) :: xs

/-- The element stack of `filepath.Clean`, most recent element first: empty and `.` elements are
dropped, a `..` element removes the element before it when there is one to remove, is dropped at
the start of a rooted path and kept otherwise. -/
def cleanStep (rooted : Bool) (stack : List (List Char)) (elem : List Char) : List (List Char) :=
  if elem = [] ∨ elem = ['.'] then stack
  else if elem = ['.', '.'] then
    match stack with
    | [] => if rooted then [] else [elem]
    | top :: rest => if top = ['.', '.'] then elem :: stack else rest
  else elem :: stack

/-- Joining path elements with `/`. -/
def joinSlash : List (List Char) → List Char
  | [] => []
  | [x] => x
  | x :: y :: rest => x ++ '/' :: joinSlash (y :: rest)

/-- Go `filepath.Clean`: the shortest path name equivalent to `path` by purely lexical
processing. -/
def Clean (path : String) : String :=
  match path.data with
  | [] => "."
  | c :: cs =>
    let rooted : Bool := c = '/'
    let stack := (splitChar '/' (c :: cs)).foldl (cleanStep rooted) []
    let out := joinSlash stack.reverse
    if rooted then ⟨'/' :: out⟩ else if out = [] then "." else ⟨out⟩

/-- Go `filepath.Join`: the non-empty elements joined with `/` and cleaned; the empty string when
every element is empty. -/
def Join (elems : List String) : String :=
  match elems.filter (fun e => e ≠ "") with
  | [] => ""
  | es => Clean ⟨joinSlash (es.map String.data)⟩

/-- Dropping the trailing slashes of a reversed path. -/
def dropSlashes : List Char → List Char
  | [] => []
  | c :: cs => if c = '/' then dropSlashes cs else c :: cs

/-- Go `filepath.Base`: the last element of the path, after removing trailing slashes; `.` for
the empty path and `/` for a path of slashes only. -/
def Base (path : String) : String :=
  if path = "" then "."
  else
    let stripped := dropSlashes path.data.reverse
    let last := (stripped.takeWhile (fun c => c ≠ '/')).reverse
    if last = [] then "/" else ⟨last⟩

/-- Go `filepath.ToSlash`: the identity where the separator is `/`. -/
def ToSlash (path : String) : String := path

/-- Go `filepath.SplitList`: the elements of a `:`-separated list, none for the empty string. -/
def SplitList (path : String) : List String :=
  if path = "" then [] else (splitChar ':' path.data).map String.mk

/-! ## The file system -/

/-- A directory tree. A file carries what `parser.ParseFile` returns for it (nothing when the
parser reports an error); a directory carries the error of listing it, if any, and its
entries. -/
inductive Entry where
  | file (name : String) (src : Option File)
  | dir (name : String) (err : Option String) (entries : List Entry)

/-- The `Name()` of an `os.FileInfo`. -/
def Entry.Name : Entry → String
  | .file name _ => name
  | .dir name _ _ => name

/-- The `IsDir()` of an `os.FileInfo`. -/
def Entry.IsDir : Entry → Bool
  | .file _ _ => false
  | .dir _ _ _ => true

/-- The entry called `name` in a list of entries. -/
def findEntry (name : String) : List Entry → Option Entry
  | [] => none
  | e :: es => if e.Name = name then some e else findEntry name es

/-- Descending from an entry along path elements. Passing through a directory does not require
listing it. -/
def descend : Entry → List String → Option Entry
  | e, [] => some e
  | .file _ _, _ :: _ => none
  | .dir _ _ entries, n :: ns =>
    match findEntry n entries with
    | some e => descend e ns
    | none => none

/-- The entry a path names in the tree `fs`, whose top is the directory `/`, which is also the
working directory. -/
def lookup (fs : Entry) (path : String) : Option Entry :=
  descend fs (((splitChar '/' (Clean path).data).filter (fun e => e ≠ [] ∧ e ≠ ['.'])).map String.mk)

/-- Go `ioutil.ReadDir` on a path: the entries and a nil error, or no entries and the error. -/
def ReadDir (fs : Entry) (path : String) : List Entry × Option String :=
  match lookup fs path with
  | none => ([], some "no such file or directory")
  | some (.file _ _) => ([], some "not a directory")
  | some (.dir _ (some e) _) => ([], some e)
  | some (.dir _ none entries) => (entries, none)

/-- Whether `os.Stat` succeeds on a path. -/
def statOk (fs : Entry) (path : String) : Bool := (lookup fs path).isSome

/-- The `isDir` of `go/build`: `os.Stat` succeeds and reports a directory. -/
def isDir (fs : Entry) (path : String) : Bool :=
  match lookup fs path with
  | some e => e.IsDir
  | none => false

/-! ## Package `go/build` -/

/-- The fields of `build.Context` the program sets (gosymbols.go:157-159). -/
structure Context where
  GOROOT : String
  GOPATH : String

/-- The method `(*build.Context).gopath`: the elements of `GOPATH`, without the empty ones, the
one equal to `GOROOT` and those starting with `~`. -/
def Context.gopath (ctxt : Context) : List String :=
  (SplitList ctxt.GOPATH).filter (fun p => !(p = "" || p = ctxt.GOROOT) && !HasPrefix p "~")

/-- The method `(*build.Context).SrcDirs` for the gc compiler: the `src` directories of `GOROOT`
and of the `GOPATH` elements that exist. -/
def Context.SrcDirs (fs : Entry) (ctxt : Context) : List String :=
  (if ctxt.GOROOT ≠ "" ∧ isDir fs (Join [ctxt.GOROOT, "src"]) then [Join [ctxt.GOROOT, "src"]]
    else [])
  ++ (ctxt.gopath.map (fun p => Join [p, "src"])).filter (isDir fs)

/-! ## Package `go/parser` -/

/-- Adding a parsed file to the package of its package clause (`parser.ParseDir`, the body of
the loop). -/
def addFile (name : String) (filename : String) (src : File) : List Package → List Package
  | [] => [⟨name, [(filename, src)]⟩]
  | p :: ps =>
    if p.Name = name then ⟨p.Name, p.Files ++ [(filename, src)]⟩ :: ps
    else p :: addFile name filename src ps

/-- The loop of `parser.ParseDir` with a nil filter: every entry that is not a directory, whose
name ends in `.go` and that parses without error joins the package named in its package
clause. -/
def parseEntries (path : String) : List Entry → List Package → List Package
  | [], pkgs => pkgs
  | .file name (some src) :: rest, pkgs =>
    if HasSuffix name ".go" then
      parseEntries path rest (addFile src.Name.Name (Join [path, name]) src pkgs)
    else parseEntries path rest pkgs
  | _ :: rest, pkgs => parseEntries path rest pkgs

/-- Go `parser.ParseDir(fset, path, nil, 0)`, first result: the packages found in the directory,
none when the directory cannot be read. -/
def ParseDir (fs : Entry) (path : String) : List Package :=
  match ReadDir fs path with
  | (_, some _) => []
  | (list, none) => parseEntries path list []

/-! ## The crawler (gosymbols.go:73-153) -/

/-- The `item` struct (gosymbols.go:107-110). -/
structure item where
  importPath : String
  err : Option String
deriving DecidableEq, Repr

/-- The import path `walkDir` computes for a directory (gosymbols.go:125). -/
def pkgOf (root dir : String) : String := ToSlash (TrimPrefix dir root)

/-- The two early returns of `walkDir` (gosymbols.go:120-131): the base name is empty, starts
with `.` or `_` or is `testdata`, or the import path is `builtin`. -/
def pruned (root dir : String) : Bool :=
  let base := Base dir
  if base = "" || base.data.head? = some '.' || base.data.head? = some '_' || base = "testdata" then
    true
  else
    match pkgOf root dir with
    | "builtin" => true
    | _ => false

/-- The send at gosymbols.go:136-138. -/
def emit (pkg : String) (err : Option String) : List item :=
  if pkg ≠ "" ∨ err.isSome then [⟨pkg, err⟩] else []

mutual
/-- The closure `walkDir` (gosymbols.go:118-149) applied to the path `dir` at which the tree has
the entry given: the items sent on the channel by this call and by the walks it starts, in the
order of a depth-first run. `ioutil.ReadDir(dir)` is the listing of the entry: no entries and an
error for a file or an unlistable directory. -/
def walkDir (root dir : String) : Entry → List item
  | .file _ _ =>
    if pruned root dir then [] else emit (pkgOf root dir) (some "not a directory")
  | .dir _ (some e) _ =>
    if pruned root dir then [] else emit (pkgOf root dir) (some e)
  | .dir _ none files =>
    if pruned root dir then [] else emit (pkgOf root dir) none ++ walkFiles root dir files
/-- The loop at gosymbols.go:139-148: one walk for every entry that is a directory. -/
def walkFiles (root dir : String) : List Entry → List item
  | [] => []
  | .file _ _ :: rest => walkFiles root dir rest
  | .dir name err entries :: rest =>
    walkDir root (Join [dir, name]) (.dir name err entries) ++ walkFiles root dir rest
end

/-- The walks the call `walkDir(dir)` starts (gosymbols.go:139-148), each with its path and the
entry found there: one for every listed entry that is a directory, none when the call returns
early or the listing fails. -/
def started (root dir : String) : Entry → List (String × Entry)
  | .dir _ none files =>
    if pruned root dir then []
    else (files.filter Entry.IsDir).map (fun fi => (Join [dir, fi.Name], fi))
  | _ => []

/-- The error of `ioutil.ReadDir` on an entry, if any. -/
def Entry.listErr : Entry → Option String
  | .file _ _ => some "not a directory"
  | .dir _ err _ => err

/-- The items the call `walkDir(dir)` sends itself (gosymbols.go:136-138), the walks it starts
left aside. -/
def sent (root dir : String) (e : Entry) : List item :=
  if pruned root dir then [] else emit (pkgOf root dir) e.listErr

/-- The function `allPackages` (gosymbols.go:112-153): the items sent for one root. A root
missing from the tree is a directory whose listing fails. -/
def allPackages (fs : Entry) (root : String) : List item :=
  let root := Clean root ++ "/"
  match lookup fs root with
  | some e => walkDir root root e
  | none => walkDir root root (.dir "" (some "no such file or directory") [])

/-- The roots `forEachPackage` walks (gosymbols.go:80-85). -/
def srcDirs (fs : Entry) (ctxt : Context) (haveSrcDir : Bool) : List String :=
  if haveSrcDir then ctxt.SrcDirs fs else [ctxt.GOPATH]

/-- The function `forEachPackage` (gosymbols.go:73-105): the items on which `found` is called,
the roots taken one after the other. -/
def forEachPackage (fs : Entry) (ctxt : Context) (haveSrcDir : Bool) : List item :=
  (srcDirs fs ctxt haveSrcDir).flatMap (allPackages fs)

/-! ## The entry point of the package (gosymbols.go:155-221) -/

/-- The directory an extraction task parses (gosymbols.go:200-204). -/
def unitDir (haveSrcDir : Bool) (dir path : String) : String :=
  if haveSrcDir then Join [dir, "src", path] else Join [dir, path]

/-- The loop at gosymbols.go:211-213 over the files of one package. -/
def inspectFiles (v : visitor) : List (String × File) → visitor
  | [] => v
  | (_, f) :: fs => inspectFiles (Inspect v f.node) fs

/-- The loop at gosymbols.go:209-214 over the parsed packages. -/
def inspectPackages (v : visitor) : List Package → visitor
  | [] => v
  | astpkg :: rest => inspectPackages (inspectFiles { v with pkg := astpkg } astpkg.Files) rest

/-- The body of an extraction task (gosymbols.go:188-214): the `v.syms` it ends with. -/
def extract (fs : Entry) (fset : FileSet) (haveSrcDir : Bool) (dir query path : String) :
    List symbol :=
  (inspectPackages { pkg := ⟨"", []⟩, fset := fset, query := query, syms := [] }
    (ParseDir fs (unitDir haveSrcDir dir path))).syms

/-- The callback passed to `forEachPackage` (gosymbols.go:174-216) followed by the task it
starts, run to its end: the shared `syms` after the task has appended. -/
def found (fs : Entry) (fset : FileSet) (haveSrcDir : Bool) (dir query : String)
    (syms : List symbol) (i : item) : List symbol :=
  if i.importPath = "" then syms
  else syms ++ extract fs fset haveSrcDir dir query i.importPath

/-- The package variable `haveSrcDir` after gosymbols.go:165-167, from its value before the
call. -/
def nextHaveSrcDir (fs : Entry) (haveSrcDir : Bool) (dir : String) : Bool :=
  if statOk fs (Join [dir, "src"]) then haveSrcDir else false

/-- The function `DoCoreMain` (gosymbols.go:155-221) in the run where every task finishes, its
append included, before the next one starts: the slice handed to `json.MarshalIndent` and the
package variable `haveSrcDir` after the call, from the value of `haveSrcDir` before it. -/
def DoCoreMain (fs : Entry) (fset : FileSet) (haveSrcDir : Bool) (dir query : String) :
    List symbol × Bool :=
  let ctxt : Context := { GOPATH := dir, GOROOT := "" }
  let have1 := nextHaveSrcDir fs haveSrcDir dir
  ((forEachPackage fs ctxt have1).foldl (found fs fset have1 dir query) [], have1)

/-! ## Declarations of a file -/

/-- The kind of a type declaration: `interface` when its type is an interface type. -/
def typeKind : Node → String
  | .InterfaceType _ => "interface"
  | _ => "type"

/-- The type declaration of a spec of a `GenDecl`, with its kind. -/
def specDecl : Node → List (Ident × String)
  | .TypeSpec Name Typ => [(Name, typeKind Typ)]
  | _ => []

/-- The function or type declarations a top-level declaration of a file makes. -/
def topDecl : Node → List (Ident × String)
  | .FuncDecl Name _ => [(Name, "func")]
  | .GenDecl Specs => Specs.flatMap specDecl
  | _ => []

/-- The package-level function and type declarations of a file, in source order. -/
def topLevel (f : File) : List (Ident × String) := f.Decls.flatMap topDecl

mutual
/-- The function and type declarations that are not inside another function or type declaration:
the traversal stops at a `FuncDecl` and at a `TypeSpec` and goes through every other node. -/
def reached : Node → List (Ident × String)
  | .IdentNode _ => []
  | .FuncDecl Name _ => [(Name, "func")]
  | .GenDecl Specs => reachedList Specs
  | .TypeSpec Name Typ => [(Name, typeKind Typ)]
  | .ValueSpec _ Values => reachedList Values
  | .InterfaceType Methods => reachedList Methods
  | .FuncLit Body => reachedList Body
  | .DeclStmt Decl => reached Decl
  | .FileNode _ Decls => reachedList Decls
  | .Other children => reachedList children
/-- The declarations reached in a list of nodes. -/
def reachedList : List Node → List (Ident × String)
  | [] => []
  | n :: ns => reached n ++ reachedList ns
end

mutual
/-- Whether a function or type declaration occurs anywhere in the node. -/
def hasDecl : Node → Bool
  | .IdentNode _ => false
  | .FuncDecl _ _ => true
  | .GenDecl Specs => hasDeclList Specs
  | .TypeSpec _ _ => true
  | .ValueSpec _ Values => hasDeclList Values
  | .InterfaceType Methods => hasDeclList Methods
  | .FuncLit Body => hasDeclList Body
  | .DeclStmt Decl => hasDecl Decl
  | .FileNode _ Decls => hasDeclList Decls
  | .Other children => hasDeclList children
/-- Whether a function or type declaration occurs anywhere in the list. -/
def hasDeclList : List Node → Bool
  | [] => false
  | n :: ns => hasDecl n || hasDeclList ns
end

/-- A spec of a package-level `GenDecl` that is a type declaration or holds no function or type
declaration at all (an import, or variables and constants whose values declare nothing). -/
def plainSpec : Node → Bool
  | .TypeSpec _ _ => true
  | n => !hasDecl n

/-- A top-level declaration all of whose function and type declarations are package-level. -/
def plainDecl : Node → Bool
  | .FuncDecl _ _ => true
  | .GenDecl Specs => Specs.all plainSpec
  | n => !hasDecl n

/-- A file in which no function or type is declared inside a package-level variable or
constant declaration. -/
def plainFile (f : File) : Bool := f.Decls.all plainDecl

/-- Whether a declaration matches the query (gosymbols.go:56). -/
def isMatch (query : String) (d : Ident × String) : Bool := Contains (ToLower d.1.Name) query

/-- The record of a declaration: name and kind of the declaration, name of the package, file and
zero-based line of the identifier, character zero. -/
def declSymbol (pkg : String) (fset : FileSet) (d : Ident × String) : symbol :=
  { Name := d.1.Name, Kind := d.2, Package := pkg, Path := (fset.File d.1.NamePos).Name,
    Line := (fset.File d.1.NamePos).Line d.1.NamePos - 1, Character := 0 }

/-- The units the callback dispatches in a run: the import paths of the items with a non-empty
path. -/
def dispatched (fs : Entry) (haveSrcDir : Bool) (dir : String) : List String :=
  ((forEachPackage fs { GOPATH := dir, GOROOT := "" } (nextHaveSrcDir fs haveSrcDir dir)).filter
    (fun i => i.importPath ≠ "")).map item.importPath

/-- The files parsed in a run: those of the packages of every dispatched unit. -/
def parsedFiles (fs : Entry) (haveSrcDir : Bool) (dir : String) : List File :=
  (dispatched fs haveSrcDir dir).flatMap (fun path =>
    (ParseDir fs (unitDir (nextHaveSrcDir fs haveSrcDir dir) dir path)).flatMap (fun pkg =>
      pkg.Files.map Prod.snd))

/-- The number of package-level declarations of a file that match the query. -/
def matchCount (query : String) (f : File) : Nat := ((topLevel f).filter (isMatch query)).length

/-- The visitor after it has recorded those of the given declarations that match its query. -/
def visitor.record (v : visitor) (ds : List (Ident × String)) : visitor :=
  { v with syms := v.syms ++ (ds.filter (isMatch v.query)).map (declSymbol v.pkg.Name v.fset) }

/-- The symbols of the matching declarations reached in the files of the given packages, each
with the name of its package. -/
def symsOfPackages (query : String) (fset : FileSet) (pkgs : List Package) : List symbol :=
  pkgs.flatMap (fun p =>
    ((p.Files.flatMap (fun f => reached f.2.node)).filter (isMatch query)).map
      (declSymbol p.Name fset))

/-- The number of matching declarations the traversal reaches in a file. -/
def reachCount (query : String) (f : File) : Nat :=
  ((reached f.node).filter (isMatch query)).length

mutual
/-- The Go files below an entry that parse, whatever the directory they are in. -/
def filesUnder : Entry → List File
  | .file name (some src) => if HasSuffix name ".go" then [src] else []
  | .file _ none => []
  | .dir _ _ entries => filesUnderList entries
/-- The Go files below the entries of a list. -/
def filesUnderList : List Entry → List File
  | [] => []
  | e :: es => filesUnder e ++ filesUnderList es
end

/-- The number of package-level declarations matching the query in all the files below an
entry. -/
def declCount (query : String) (e : Entry) : Nat := ((filesUnder e).map (matchCount query)).sum

/-! ## The command (main.go:21-45) -/

/-- The constant `usage` (main.go:15). -/
def usage : String := "Usage: gosymbols <package> ..."

/-- What a run of the command leaves behind: its exit status, what it wrote on the error stream,
the lines its progress hook printed on the standard output, and the slice whose serialization
it printed after them (none when it printed none). -/
structure Output where
  exitCode : Nat
  stderr : String
  progress : List String
  json : Option (List symbol)

/-- The calls of `Schedule` (gosymbols.go:183-184) in the run of `DoCoreMain` where every task
finishes before the next one starts: the task of the `k`-th unit reports `k` finished tasks out
of the `k` dispatched so far. -/
def scheduleCalls (fs : Entry) (haveSrcDir : Bool) (dir : String) : List (Nat × Nat) :=
  (List.range (dispatched fs haveSrcDir dir).length).map (fun k => (k + 1, k + 1))

/-- The line the hook installed at main.go:40-42 prints for one call. -/
def progressLine (p : Nat × Nat) : String :=
  "进度: " ++ toString p.1 ++ " " ++ toString p.2 ++ "\n"

/-- The function `main` (main.go:21-45) on the arguments left by `flag.Parse`, in a fresh
process, where `haveSrcDir` is true: without an argument the usage on the error stream and exit
status 1; otherwise the first argument is the directory, the second, when there is one, the
query, which is lowercased before `DoCoreMain` is called. -/
def main (fs : Entry) (fset : FileSet) (args : List String) : Output :=
  match args with
  | [] => { exitCode := 1, stderr := usage, progress := [], json := none }
  | dir :: rest =>
    let query := ToLower (match rest with
      | q :: _ => q
      | [] => "")
    { exitCode := 0, stderr := "",
      progress := (scheduleCalls fs true dir).map progressLine,
      json := some (DoCoreMain fs fset true dir query).1 }

/-! ## The goroutines of `DoCoreMain`

One run of `DoCoreMain` as a transition system: the crawler sends items, the caller's goroutine
receives them and starts tasks, then waits on `wg` and serializes; each task advances through
its body and its deferred calls. A Go function runs its deferred calls in the reverse of the
order in which the `defer` statements ran, so a task calls `wg.Done()` (deferred last, at
gosymbols.go:198), then appends under the mutex (deferred at gosymbols.go:192-196), then counts,
reports and releases its token (deferred first, at gosymbols.go:182-186). -/

/-- Where an extraction task stands. -/
inductive TaskPc where
  | acquire
  | body
  | deferDone
  | deferAppend
  | deferRelease
  | finished
deriving DecidableEq, Repr

/-- An extraction task: the goroutine started at gosymbols.go:180 for one unit. -/
structure Task where
  path : String
  pc : TaskPc
  vsyms : List symbol
deriving DecidableEq, Repr

/-- Where the goroutine that called `DoCoreMain` stands: in the loop of `forEachPackage`
(gosymbols.go:102-104), in `wg.Wait()` (gosymbols.go:217), or past the serialization
(gosymbols.go:219). -/
inductive MainPc where
  | ranging
  | waiting
  | returned
deriving DecidableEq, Repr

/-- The state of one run. -/
structure Run where
  pending : List item
  closed : Bool
  mainPc : MainPc
  wg : Nat
  sema : Nat
  all : Nat
  count : Nat
  tasks : List Task
  syms : List symbol
  result : Option (List symbol)
deriving DecidableEq, Repr

/-- The moves of a run: the crawler sends its next item and the loop calls `found` on it; the
crawler closes the channel; the loop ends; `wg.Wait()` returns and the result is serialized;
task `k` takes its next step. -/
inductive Action where
  | send
  | close
  | endRange
  | wait
  | task (k : Nat)
deriving DecidableEq, Repr

/-- The state at the call of `forEachPackage` (gosymbols.go:174), for the items the crawler is
going to send. -/
def initRun (items : List item) : Run :=
  { pending := items, closed := false, mainPc := .ranging, wg := 0, sema := 0, all := 0,
    count := 0, tasks := [], syms := [], result := none }

/-- One step of a task, `ex` giving the `v.syms` its body computes for a unit. -/
def stepTask (ex : String → List symbol) (s : Run) (k : Nat) (t : Task) : Option Run :=
  match t.pc with
  | .acquire =>
    if s.sema < 8 then
      some { s with sema := s.sema + 1, tasks := s.tasks.set k { t with pc := .body } }
    else none
  | .body =>
    some { s with tasks := s.tasks.set k { t with pc := .deferDone, vsyms := ex t.path } }
  | .deferDone =>
    some { s with wg := s.wg - 1, tasks := s.tasks.set k { t with pc := .deferAppend } }
  | .deferAppend =>
    some { s with syms := s.syms ++ t.vsyms, tasks := s.tasks.set k { t with pc := .deferRelease } }
  | .deferRelease =>
    some { s with count := s.count + 1, sema := s.sema - 1,
                  tasks := s.tasks.set k { t with pc := .finished } }
  | .finished => none

/-- One move of the run; none when the move is not enabled. -/
def step (ex : String → List symbol) (s : Run) : Action → Option Run
  | .send =>
    match s.mainPc, s.pending with
    | .ranging, i :: rest =>
      if i.importPath = "" then some { s with pending := rest }
      else some { s with pending := rest, all := s.all + 1, wg := s.wg + 1,
                         tasks := s.tasks ++ [{ path := i.importPath, pc := .acquire, vsyms := [] }] }
    | _, _ => none
  | .close =>
    if s.pending = [] ∧ s.closed = false then some { s with closed := true } else none
  | .endRange =>
    if s.mainPc = .ranging ∧ s.closed = true then some { s with mainPc := .waiting } else none
  | .wait =>
    if s.mainPc = .waiting ∧ s.wg = 0 then
      some { s with mainPc := .returned, result := some s.syms }
    else none
  | .task k =>
    match s.tasks.get? k with
    | some t => stepTask ex s k t
    | none => none

/-- A sequence of moves from a state. -/
def exec (ex : String → List symbol) : Run → List Action → Option Run
  | s, [] => some s
  | s, a :: as =>
    match step ex s a with
    | some s1 => exec ex s1 as
    | none => none

/-- The task has appended its symbols to the shared list. -/
def Task.appended (t : Task) : Bool := t.pc = .deferRelease || t.pc = .finished

/-- What a task has put into the shared list: its symbols once it has appended. -/
def contrib (t : Task) : List symbol := if t.appended then t.vsyms else []

/-- What holds in every state of a run on the items `items`: the tasks are those of the items
received, in order; a task past its body holds the symbols of its unit; the shared list holds,
in some order, the symbols of the tasks that have appended; the channel is closed only when the
crawler has sent everything, and the loop has ended only when the channel is closed. -/
def RunInv (ex : String → List symbol) (items : List item) (s : Run) : Prop :=
  (∃ consumed, items = consumed ++ s.pending
    ∧ s.tasks.map Task.path
        = (consumed.filter (fun i => i.importPath ≠ "")).map item.importPath)
  ∧ (∀ t ∈ s.tasks, t.pc ≠ .acquire → t.pc ≠ .body → t.vsyms = ex t.path)
  ∧ s.syms.Perm (s.tasks.flatMap contrib)
  ∧ (s.closed = true → s.pending = [])
  ∧ (s.mainPc ≠ .ranging → s.closed = true)

/-- The moves of the run in which every task runs to its end as soon as it is started: each
item is received and, when a task is started for it, the task, which is the `k`-th, takes its
five steps; then the channel is closed and the loop ends. -/
def seqMoves : Nat → List item → List Action
  | _, [] => [.close, .endRange]
  | k, i :: rest =>
    if i.importPath = "" then .send :: seqMoves k rest
    else .send :: .task k :: .task k :: .task k :: .task k :: .task k :: seqMoves (k + 1) rest

/-- The tasks of the units of the given items once they have finished. -/
def finishedTasks (ex : String → List symbol) (items : List item) : List Task :=
  ((items.filter (fun i => i.importPath ≠ "")).map item.importPath).map
    (fun p => ⟨p, .finished, ex p⟩)

/-- A state in which the loop is receiving and no task holds a token. -/
def loopState (pending : List item) (wg all count : Nat) (tasks : List Task)
    (syms : List symbol) : Run :=
  { pending := pending, closed := false, mainPc := .ranging, wg := wg, sema := 0, all := all,
    count := count, tasks := tasks, syms := syms, result := none }

/-- The state in which the result has been serialized and every task has finished. -/
def doneState (n : Nat) (tasks : List Task) (syms : List symbol) : Run :=
  { pending := [], closed := true, mainPc := .returned, wg := 0, sema := 0, all := n,
    count := n, tasks := tasks, syms := syms, result := some syms }

/-! ## Trees and paths by names -/

/-- The characters of a name a directory entry can have: not empty, without `/`, other than `.`
and `..`. -/
def plainChars (c : List Char) : Prop := c ≠ [] ∧ '/' ∉ c ∧ c ≠ ['.'] ∧ c ≠ ['.', '.']

instance (c : List Char) : Decidable (plainChars c) := by
  unfold plainChars
  exact inferInstance

/-- A name a directory entry can have. -/
def plainName (n : String) : Bool := decide (plainChars n.data)

/-- The absolute path made of the given names: `/n1/n2/.../nk`, and `/` for no name. -/
def absPath (ns : List String) : String := ⟨'/' :: joinSlash (ns.map String.data)⟩

/-- The relative path made of the given names: `n1/n2/.../nk`. -/
def relPath (ns : List String) : String := ⟨joinSlash (ns.map String.data)⟩

/-- The non-empty elements of a path. -/
def comps (s : List Char) : List (List Char) := (splitChar '/' s).filter (fun e => e ≠ [])

/-- A directory name at which a crawl stops: it starts with `.` or `_`, or it is `testdata`. -/
def skipName (n : String) : Bool :=
  n.data.head? = some '.' || n.data.head? = some '_' || n = "testdata"

mutual
/-- A tree as a file system has it: in every directory the entries have plain names, no two the
same. -/
def wfEntry : Entry → Bool
  | .file _ _ => true
  | .dir _ _ entries =>
    wfList entries && entries.all (fun e => plainName e.Name)
      && decide ((entries.map Entry.Name).Nodup)
/-- Every entry of the list is a well-formed tree. -/
def wfList : List Entry → Bool
  | [] => true
  | e :: es => wfEntry e && wfList es
end

mutual
/-- The directories a crawl visits at and below a directory, each with its names from the root
of the crawl down (none for the root itself): a directory with a name at which the crawl stops,
and the directory `builtin` right under the root, are left out with all they hold; the crawl
does not go below a directory that cannot be listed. -/
def crawlDirs (rel : List String) : Entry → List (List String × Entry)
  | .file _ _ => []
  | .dir name (some err) entries =>
    if skipName name || decide (rel = ["builtin"]) then []
    else [(rel, .dir name (some err) entries)]
  | .dir name none entries =>
    if skipName name || decide (rel = ["builtin"]) then []
    else (rel, .dir name none entries) :: crawlDirsList rel entries
/-- The directories a crawl visits at and below the directories of a list. -/
def crawlDirsList (rel : List String) : List Entry → List (List String × Entry)
  | [] => []
  | .file _ _ :: rest => crawlDirsList rel rest
  | .dir name err entries :: rest =>
    crawlDirs (rel ++ [name]) (.dir name err entries) ++ crawlDirsList rel rest
end

/-- The Go files of a directory listing that parse. -/
def goFiles : List Entry → List File
  | [] => []
  | .file name (some src) :: rest =>
    if HasSuffix name ".go" then src :: goFiles rest else goFiles rest
  | _ :: rest => goFiles rest

/-- The Go files that parse in a directory that can be listed. -/
def dirFiles : Entry → List File
  | .dir _ none entries => goFiles entries
  | _ => []

/-- The Go files of the directories a crawl from the given root visits, the root itself
excepted. -/
def crawledFiles (root : Entry) : List File :=
  (crawlDirs [] root).flatMap (fun p => if p.1 = [] then [] else dirFiles p.2)

/-- The names of the root of the crawl for the directory `/n1/.../nk` in a fresh process: the
directory itself when it has no entry `src`, its `src` when that is a directory, none when `src`
is a file. -/
def crawlRoot (fs : Entry) (ns : List String) : Option (List String) :=
  match descend fs (ns ++ ["src"]) with
  | none => some ns
  | some (.dir _ _ _) => some (ns ++ ["src"])
  | some (.file _ _) => none

/-- The Go files of the directories crawled for the directory `/n1/.../nk`. -/
def treeFiles (fs : Entry) (ns : List String) : List File :=
  match crawlRoot fs ns with
  | none => []
  | some r =>
    match descend fs r with
    | some root => crawledFiles root
    | none => []

/-- The item sent for a directory a crawl visits: its relative path and the error of listing
it. -/
def crawlItem (p : List String × Entry) : item := ⟨relPath p.1, p.2.listErr⟩

/-- The files of a list of packages. -/
def filesOf (pkgs : List Package) : List File := pkgs.flatMap (fun pkg => pkg.Files.map Prod.snd)

/-! ## Examples -/

/-- A file set for examples: every position lies in `name`, on the line equal to the position. -/
def fsetOf (name : String) : FileSet := ⟨fun _ => ⟨name, fun p => (p : Int)⟩⟩

/-- A visitor for examples: package `p`, query `wid`, nothing recorded yet. -/
def exampleVisitor : visitor := ⟨⟨"p", []⟩, fsetOf "a.go", "wid", []⟩

/-- The tree of the examples. `/proj` has no `src` entry: a file at its top, the packages
`pkgA` and `pkgB`, a `testdata` directory and a directory that cannot be listed, which holds a
Go file. `/gp` has a `src` entry with the package `q`, and a package `docs` beside it. `/uni`
holds a package whose function has a name outside ASCII. -/
def exampleTree : Entry :=
  .dir "" none [
    .dir "proj" none [
      .file "root.go" (some ⟨⟨"main", 1⟩, [.FuncDecl ⟨"RootFn", 3⟩ []]⟩),
      .dir "pkgA" none [
        .file "a.go" (some ⟨⟨"pkga", 1⟩,
          [.FuncDecl ⟨"DoThing", 3⟩ [], .GenDecl [.TypeSpec ⟨"Widget", 5⟩ (.InterfaceType [])]]⟩)],
      .dir "pkgB" none [
        .file "b.go" (some ⟨⟨"pkgb", 1⟩, [.GenDecl [.TypeSpec ⟨"Gadget", 2⟩ (.Other [])]]⟩),
        .dir "testdata" none [.file "t.go" (some ⟨⟨"t", 1⟩, [.FuncDecl ⟨"Hidden", 3⟩ []]⟩)],
        .dir "sub" (some "permission denied") [
          .file "s.go" (some ⟨⟨"sub", 1⟩, [.FuncDecl ⟨"Secret", 3⟩ []]⟩), .dir "x" none []]]],
    .dir "gp" none [
      .dir "src" none [
        .dir "q" none [.file "q.go" (some ⟨⟨"q", 1⟩, [.FuncDecl ⟨"FooBar", 3⟩ []]⟩)]],
      .dir "docs" none [.file "d.go" (some ⟨⟨"docs", 1⟩, [.FuncDecl ⟨"Doc", 3⟩ []]⟩)]],
    .dir "uni" none [
      .dir "ecole" none [.file "e.go" (some ⟨⟨"ecole", 1⟩, [.FuncDecl ⟨"ÉCOLE", 3⟩ []]⟩)]]]

/-- A tree with a directory `builtin` right under `/` and another one under `/w`, each with a
Go file, and a package `/w/p`. -/
def rootTree : Entry :=
  .dir "" none [
    .dir "builtin" none [.file "b.go" (some ⟨⟨"builtin", 1⟩, [.FuncDecl ⟨"Append", 3⟩ []]⟩)],
    .dir "w" none [
      .dir "builtin" none [.file "c.go" (some ⟨⟨"builtin", 1⟩, [.FuncDecl ⟨"Cap", 3⟩ []]⟩)],
      .dir "p" none [.file "p.go" (some ⟨⟨"p", 1⟩, [.FuncDecl ⟨"P", 3⟩ []]⟩)]]]

/-- The file `package p; var x = func() { type T int }`: a variable initialised with a function
literal whose body declares a type. -/
def nestedTypeFile : File :=
  ⟨⟨"p", 1⟩, [.GenDecl [.ValueSpec [⟨"x", 2⟩]
    [.FuncLit [.Other [], .Other [.DeclStmt (.GenDecl [.TypeSpec ⟨"T", 2⟩ (.IdentNode ⟨"int", 2⟩)])]]]]]⟩

/-! ## Lemmas on strings -/

theorem hasPrefixL_iff (s p : List Char) : hasPrefixL s p = true ↔ p <+: s := by
  induction s generalizing p with
  | nil => cases p <;> simp [hasPrefixL]
  | cons c cs ih =>
    cases p with
    | nil => simp [hasPrefixL]
    | cons a as =>
      simp only [hasPrefixL, Bool.and_eq_true, beq_iff_eq, ih, List.cons_prefix_cons]
      constructor
      · rintro ⟨h1, h2⟩
        exact ⟨h1.symm, h2⟩
      · rintro ⟨h1, h2⟩
        exact ⟨h1.symm, h2⟩

theorem containsL_iff (s sub : List Char) : containsL s sub = true ↔ sub <:+: s := by
  induction s with
  | nil => simp [containsL, hasPrefixL_iff]
  | cons c cs ih =>
    simp only [containsL, Bool.or_eq_true, hasPrefixL_iff, ih, List.infix_cons_iff]

theorem Contains_iff (s substr : String) : Contains s substr = true ↔ substr.data <:+: s.data :=
  containsL_iff s.data substr.data

theorem Contains_empty (s : String) : Contains s "" = true :=
  (Contains_iff s "").2 (show [] <:+: s.data from List.nil_infix)

theorem isMatch_iff (query : String) (d : Ident × String) :
    isMatch query d = true ↔ query.data <:+: (ToLower d.1.Name).data :=
  Contains_iff _ _

/-! ## The case of the query -/

theorem ranges_apart : caseRanges.all (fun r => caseRanges.all (apart r)) = true := by
  decide!

theorem lowerNat_target (n : Nat) (r : Nat × Nat × Nat × Nat) (hmem : r ∈ caseRanges)
    (hin : inRange n r = true) : lowerNat (n - r.1 + r.2.2.2) = n - r.1 + r.2.2.2 := by
  have hnone : caseRanges.find? (inRange (n - r.1 + r.2.2.2)) = none := by
    rw [List.find?_eq_none]
    intro s hs hcontra
    have hap := List.all_eq_true.1 (List.all_eq_true.1 ranges_apart r hmem) s hs
    obtain ⟨lo, hi, st, t⟩ := r
    obtain ⟨lo2, hi2, st2, t2⟩ := s
    simp only [inRange, Bool.and_eq_true, decide_eq_true_eq, beq_iff_eq] at hin hcontra
    simp only [apart, Bool.or_eq_true, Bool.and_eq_true, Nat.blt_eq] at hap
    obtain ⟨⟨h1, h2⟩, h3⟩ := hin
    obtain ⟨⟨c1, c2⟩, c3⟩ := hcontra
    rcases hap with (hap | hap) | ⟨⟨hs2, hst⟩, hpar⟩
    · omega
    · omega
    · have e1 := Nat.eq_of_beq_eq_true hs2
      have e2 := Nat.eq_of_beq_eq_true hpar
      subst e1
      rcases hst with hst | hst
      · have e3 := Nat.eq_of_beq_eq_true hst
        subst e3
        omega
      · have e3 := Nat.eq_of_beq_eq_true hst
        omega
  unfold lowerNat
  rw [hnone]

theorem lowerNat_idem (n : Nat) : lowerNat (lowerNat n) = lowerNat n := by
  cases h : caseRanges.find? (inRange n) with
  | none =>
    have : lowerNat n = n := by unfold lowerNat; rw [h]
    rw [this, this]
  | some r =>
    have : lowerNat n = n - r.1 + r.2.2.2 := by unfold lowerNat; rw [h]
    rw [this]
    exact lowerNat_target n r (List.mem_of_find?_eq_some h) (List.find?_some h)

theorem ofNat_toNat_cases (m : Nat) : (Char.ofNat m).toNat = m ∨ (Char.ofNat m).toNat = 0 := by
  unfold Char.ofNat
  split
  · exact Or.inl rfl
  · exact Or.inr rfl

theorem unicodeLower_idem (c : Char) : unicodeLower (unicodeLower c) = unicodeLower c := by
  have key : lowerNat (unicodeLower c).toNat = (unicodeLower c).toNat := by
    unfold unicodeLower
    rcases ofNat_toNat_cases (lowerNat c.toNat) with h | h
    · rw [h, lowerNat_idem]
    · rw [h]
      rfl
  show Char.ofNat (lowerNat (unicodeLower c).toNat) = unicodeLower c
  rw [key, Char.ofNat_toNat]

theorem ToLower_idem (q : String) : ToLower (ToLower q) = ToLower q := by
  unfold ToLower
  congr 1
  rw [List.map_map]
  apply List.map_congr_left
  intro c _
  exact unicodeLower_idem c

theorem exists_of_ToLower_ne (q : String) (h : ToLower q ≠ q) :
    ∃ c ∈ q.data, unicodeLower c ≠ c := by
  by_contra hc
  apply h
  have hall : ∀ c ∈ q.data, unicodeLower c = c := by
    intro c hm
    by_contra hne
    exact hc ⟨c, hm, hne⟩
  unfold ToLower
  have : q.data.map unicodeLower = q.data := by
    conv_rhs => rw [← List.map_id q.data]
    exact List.map_congr_left (fun c hm => hall c hm)
  rw [this]

theorem isMatch_of_not_lower (query : String) (h : ToLower query ≠ query)
    (d : Ident × String) : isMatch query d = false := by
  obtain ⟨c, hc, hu⟩ := exists_of_ToLower_ne query h
  cases hm : isMatch query d with
  | false => rfl
  | true =>
    have hin : c ∈ (ToLower d.1.Name).data := ((isMatch_iff query d).1 hm).subset hc
    simp only [ToLower, List.mem_map] at hin
    obtain ⟨a, _, rfl⟩ := hin
    exact absurd (unicodeLower_idem a) hu

theorem symsOfPackages_of_not_lower (query : String) (h : ToLower query ≠ query)
    (fset : FileSet) (pkgs : List Package) : symsOfPackages query fset pkgs = [] := by
  have hf : ∀ l : List (Ident × String), l.filter (isMatch query) = [] := by
    intro l
    exact List.filter_eq_nil_iff.2 (fun d _ => by simp [isMatch_of_not_lower query h d])
  simp [symsOfPackages, hf]

/-! ## Lemmas on `Visit` -/

theorem visitSwitch_typeSpec (Name : Ident) (Typ : Node) :
    visitSwitch (some (.TypeSpec Name Typ)) = (some Name, typeKind Typ, false) := by
  cases Typ <;> rfl

theorem Visit_funcDecl (v : visitor) (Name : Ident) (parts : List Node) :
    v.Visit (some (.FuncDecl Name parts))
      = (if isMatch v.query (Name, "func") then
          { v with syms := v.syms ++ [declSymbol v.pkg.Name v.fset (Name, "func")] } else v,
         false) := by
  unfold visitor.Visit
  simp only [visitSwitch, isMatch, declSymbol]
  split <;> rfl

theorem Visit_typeSpec (v : visitor) (Name : Ident) (Typ : Node) :
    v.Visit (some (.TypeSpec Name Typ))
      = (if isMatch v.query (Name, typeKind Typ) then
          { v with syms := v.syms ++ [declSymbol v.pkg.Name v.fset (Name, typeKind Typ)] } else v,
         false) := by
  unfold visitor.Visit
  simp only [visitSwitch_typeSpec, isMatch, declSymbol]
  split <;> rfl

theorem Visit_nil (v : visitor) : v.Visit none = (v, true) := rfl

/-! ## The traversal records the declarations it reaches -/

theorem record_nil (v : visitor) : v.record [] = v := by
  simp [visitor.record]

theorem record_append (v : visitor) (a b : List (Ident × String)) :
    (v.record a).record b = v.record (a ++ b) := by
  simp [visitor.record, List.filter_append, List.map_append, List.append_assoc]

theorem record_single (v : visitor) (d : Ident × String) :
    v.record [d] = if isMatch v.query d then
      { v with syms := v.syms ++ [declSymbol v.pkg.Name v.fset d] } else v := by
  by_cases h : isMatch v.query d = true <;> simp [visitor.record, h]

theorem walkIdent_eq (v : visitor) (id : Ident) : walkIdent v id = v := rfl

theorem walkIdentList_eq (v : visitor) (ids : List Ident) : walkIdentList v ids = v := by
  induction ids generalizing v with
  | nil => rfl
  | cons id ids ih => simp [walkIdentList, walkIdent_eq, ih]

mutual
theorem Inspect_eq (v : visitor) : (n : Node) → Inspect v n = v.record (reached n)
  | .IdentNode id => by
    simp [Inspect, reached, record_nil, visitor.Visit, visitSwitch]
  | .FuncDecl Name parts => by
    rw [Inspect, Visit_funcDecl, reached, record_single]
  | .GenDecl Specs => by
    have ih := InspectList_eq v Specs
    simp [Inspect, reached, visitor.Visit, visitSwitch, ih]
  | .TypeSpec Name Typ => by
    rw [Inspect, Visit_typeSpec, reached, record_single]
  | .ValueSpec Names Values => by
    have ih := InspectList_eq v Values
    simp [Inspect, reached, visitor.Visit, visitSwitch, walkIdentList_eq, ih]
  | .InterfaceType Methods => by
    have ih := InspectList_eq v Methods
    simp [Inspect, reached, visitor.Visit, visitSwitch, ih]
  | .FuncLit Body => by
    have ih := InspectList_eq v Body
    simp [Inspect, reached, visitor.Visit, visitSwitch, ih]
  | .DeclStmt Decl => by
    have ih := Inspect_eq v Decl
    simp [Inspect, reached, visitor.Visit, visitSwitch, ih]
  | .FileNode Name Decls => by
    have ih := InspectList_eq v Decls
    simp [Inspect, reached, visitor.Visit, visitSwitch, walkIdent_eq, ih]
  | .Other children => by
    have ih := InspectList_eq v children
    simp [Inspect, reached, visitor.Visit, visitSwitch, ih]
theorem InspectList_eq (v : visitor) : (ns : List Node) → InspectList v ns = v.record (reachedList ns)
  | [] => by simp [InspectList, reachedList, record_nil]
  | n :: ns => by
    rw [InspectList, Inspect_eq v n, InspectList_eq (v.record (reached n)) ns, record_append,
      reachedList]
end

/-! ## The run as a list of symbols -/

theorem inspectFiles_eq (v : visitor) (files : List (String × File)) :
    inspectFiles v files = v.record (files.flatMap (fun f => reached f.2.node)) := by
  induction files generalizing v with
  | nil => simp [inspectFiles, record_nil]
  | cons f rest ih =>
    obtain ⟨name, file⟩ := f
    simp [inspectFiles, Inspect_eq, ih, record_append]

theorem inspectPackages_syms (v : visitor) (pkgs : List Package) :
    (inspectPackages v pkgs).syms = v.syms ++ symsOfPackages v.query v.fset pkgs
    ∧ (inspectPackages v pkgs).query = v.query ∧ (inspectPackages v pkgs).fset = v.fset := by
  induction pkgs generalizing v with
  | nil => simp [inspectPackages, symsOfPackages]
  | cons p rest ih =>
    rw [inspectPackages, inspectFiles_eq]
    obtain ⟨h1, h2, h3⟩ := ih (({ v with pkg := p } : visitor).record
      (p.Files.flatMap (fun f => reached f.2.node)))
    refine ⟨?_, h2, h3⟩
    rw [h1]
    simp [visitor.record, symsOfPackages, List.append_assoc]

theorem extract_eq (fs : Entry) (fset : FileSet) (haveSrcDir : Bool) (dir query path : String) :
    extract fs fset haveSrcDir dir query path
      = symsOfPackages query fset (ParseDir fs (unitDir haveSrcDir dir path)) := by
  unfold extract
  rw [(inspectPackages_syms _ _).1]
  rfl

theorem foldl_found (fs : Entry) (fset : FileSet) (haveSrcDir : Bool) (dir query : String)
    (items : List item) (acc : List symbol) :
    items.foldl (found fs fset haveSrcDir dir query) acc
      = acc ++ ((items.filter (fun i => i.importPath ≠ "")).map item.importPath).flatMap
          (extract fs fset haveSrcDir dir query) := by
  induction items generalizing acc with
  | nil => simp
  | cons i rest ih =>
    rw [List.foldl_cons, ih]
    by_cases h : i.importPath = ""
    · simp [found, h]
    · simp [found, h, List.append_assoc]

theorem DoCoreMain_eq (fs : Entry) (fset : FileSet) (haveSrcDir : Bool) (dir query : String) :
    (DoCoreMain fs fset haveSrcDir dir query).1
      = (dispatched fs haveSrcDir dir).flatMap (fun path =>
          symsOfPackages query fset
            (ParseDir fs (unitDir (nextHaveSrcDir fs haveSrcDir dir) dir path))) := by
  unfold DoCoreMain dispatched
  simp only [foldl_found, List.nil_append]
  congr 1
  funext path
  exact extract_eq _ _ _ _ _ _

theorem length_filter_flatMap (query : String) (files : List (String × File)) :
    ((files.flatMap (fun f => reached f.2.node)).filter (isMatch query)).length
      = ((files.map Prod.snd).map (reachCount query)).sum := by
  induction files with
  | nil => simp
  | cons f rest ih =>
    simp only [List.flatMap_cons, List.filter_append, List.length_append, List.map_cons,
      List.sum_cons]
    rw [ih]
    rfl

theorem symsOfPackages_cons (query : String) (fset : FileSet) (p : Package)
    (rest : List Package) :
    symsOfPackages query fset (p :: rest)
      = ((p.Files.flatMap (fun f => reached f.2.node)).filter (isMatch query)).map
          (declSymbol p.Name fset) ++ symsOfPackages query fset rest := by
  simp [symsOfPackages]

theorem length_symsOfPackages (query : String) (fset : FileSet) (pkgs : List Package) :
    (symsOfPackages query fset pkgs).length
      = ((pkgs.flatMap (fun pkg => pkg.Files.map Prod.snd)).map (reachCount query)).sum := by
  induction pkgs with
  | nil => simp [symsOfPackages]
  | cons p rest ih =>
    rw [symsOfPackages_cons]
    simp only [List.flatMap_cons, List.length_append, List.length_map,
      length_filter_flatMap, List.map_append, List.sum_append, ih]

theorem length_units (query : String) (fset : FileSet) (g : String → List Package)
    (paths : List String) :
    (paths.flatMap (fun path => symsOfPackages query fset (g path))).length
      = ((paths.flatMap (fun path => (g path).flatMap (fun pkg => pkg.Files.map Prod.snd))).map
          (reachCount query)).sum := by
  induction paths with
  | nil => simp
  | cons path rest ih =>
    simp only [List.flatMap_cons, List.length_append, length_symsOfPackages, List.map_append,
      List.sum_append, ih]

theorem length_DoCoreMain (fs : Entry) (fset : FileSet) (haveSrcDir : Bool) (dir query : String) :
    (DoCoreMain fs fset haveSrcDir dir query).1.length
      = ((parsedFiles fs haveSrcDir dir).map (reachCount query)).sum := by
  rw [DoCoreMain_eq, length_units]
  rfl

/-! ## Files whose declarations are all package-level -/

mutual
theorem reached_of_not_hasDecl : (n : Node) → hasDecl n = false → reached n = []
  | .IdentNode _, _ => rfl
  | .FuncDecl _ _, h => by simp [hasDecl] at h
  | .GenDecl Specs, h => by
    simp only [hasDecl] at h
    simpa [reached] using reachedList_of_not_hasDecl Specs h
  | .TypeSpec _ _, h => by simp [hasDecl] at h
  | .ValueSpec _ Values, h => by
    simp only [hasDecl] at h
    simpa [reached] using reachedList_of_not_hasDecl Values h
  | .InterfaceType Methods, h => by
    simp only [hasDecl] at h
    simpa [reached] using reachedList_of_not_hasDecl Methods h
  | .FuncLit Body, h => by
    simp only [hasDecl] at h
    simpa [reached] using reachedList_of_not_hasDecl Body h
  | .DeclStmt Decl, h => by
    simp only [hasDecl] at h
    simpa [reached] using reached_of_not_hasDecl Decl h
  | .FileNode _ Decls, h => by
    simp only [hasDecl] at h
    simpa [reached] using reachedList_of_not_hasDecl Decls h
  | .Other children, h => by
    simp only [hasDecl] at h
    simpa [reached] using reachedList_of_not_hasDecl children h
theorem reachedList_of_not_hasDecl : (ns : List Node) → hasDeclList ns = false →
    reachedList ns = []
  | [], _ => rfl
  | n :: ns, h => by
    simp only [hasDeclList, Bool.or_eq_false_iff] at h
    simp [reachedList, reached_of_not_hasDecl n h.1, reachedList_of_not_hasDecl ns h.2]
end

theorem reached_of_plainSpec (n : Node) (h : plainSpec n = true) : reached n = specDecl n := by
  cases n with
  | TypeSpec Name Typ => rfl
  | _ =>
    simp only [plainSpec, Bool.not_eq_true'] at h
    rw [reached_of_not_hasDecl _ h]
    rfl

theorem reachedList_of_plainSpecs (ns : List Node) (h : ns.all plainSpec = true) :
    reachedList ns = ns.flatMap specDecl := by
  induction ns with
  | nil => rfl
  | cons n rest ih =>
    simp only [List.all_cons, Bool.and_eq_true] at h
    simp [reachedList, reached_of_plainSpec n h.1, ih h.2]

theorem reached_of_plainDecl (n : Node) (h : plainDecl n = true) : reached n = topDecl n := by
  cases n with
  | FuncDecl Name parts => rfl
  | GenDecl Specs =>
    simp only [plainDecl] at h
    simp [reached, topDecl, reachedList_of_plainSpecs Specs h]
  | _ =>
    simp only [plainDecl, Bool.not_eq_true'] at h
    rw [reached_of_not_hasDecl _ h]
    rfl

theorem reachedList_of_plainDecls (ns : List Node) (h : ns.all plainDecl = true) :
    reachedList ns = ns.flatMap topDecl := by
  induction ns with
  | nil => rfl
  | cons n rest ih =>
    simp only [List.all_cons, Bool.and_eq_true] at h
    simp [reachedList, reached_of_plainDecl n h.1, ih h.2]

theorem reachCount_of_plainFile (query : String) (f : File) (h : plainFile f = true) :
    reachCount query f = matchCount query f := by
  unfold reachCount matchCount File.node topLevel
  rw [reached, reachedList_of_plainDecls f.Decls h]

/-! ## Paths of plain names -/

theorem splitChar_ne_nil (sep : Char) (s : List Char) : splitChar sep s ≠ [] := by
  cases s with
  | nil => simp [splitChar]
  | cons c cs =>
    unfold splitChar
    split
    · simp
    · split <;> simp

theorem splitChar_append (sep : Char) (a b : List Char) :
    splitChar sep (a ++ sep :: b) = splitChar sep a ++ splitChar sep b := by
  induction a with
  | nil => simp [splitChar]
  | cons c cs ih =>
    by_cases hc : c = sep
    · simp [splitChar, hc, ih]
    · cases h : splitChar sep cs with
      | nil => exact absurd h (splitChar_ne_nil sep cs)
      | cons x xs =>
        have l1 : splitChar sep (c :: (cs ++ sep :: b))
            = (match splitChar sep (cs ++ sep :: b) with
              | [] => [[c]]
              | x :: xs => (c :: x) :: xs) := by simp [splitChar, hc]
        have l2 : splitChar sep (c :: cs)
            = (match splitChar sep cs with
              | [] => [[c]]
              | x :: xs => (c :: x) :: xs) := by simp [splitChar, hc]
        rw [List.cons_append, l1, l2, ih, h]
        rfl

theorem splitChar_of_not_mem (sep : Char) (s : List Char) (h : sep ∉ s) :
    splitChar sep s = [s] := by
  induction s with
  | nil => rfl
  | cons c cs ih =>
    simp only [List.mem_cons, not_or] at h
    have hc : ¬ c = sep := fun e => h.1 e.symm
    simp [splitChar, hc, ih h.2]

theorem comps_nil : comps [] = [] := by
  simp [comps, splitChar]

theorem comps_append (a b : List Char) : comps (a ++ '/' :: b) = comps a ++ comps b := by
  simp [comps, splitChar_append]

theorem comps_cons_slash (b : List Char) : comps ('/' :: b) = comps b := by
  simpa [comps_nil] using comps_append [] b

theorem comps_plain (c : List Char) (h : plainChars c) : comps c = [c] := by
  simp [comps, splitChar_of_not_mem '/' c h.2.1, h.1]

theorem joinSlash_cons (x : List Char) (N : List (List Char)) (hN : N ≠ []) :
    joinSlash (x :: N) = x ++ '/' :: joinSlash N := by
  cases N with
  | nil => exact absurd rfl hN
  | cons y rest => rfl

theorem joinSlash_append (A B : List (List Char)) (hA : A ≠ []) (hB : B ≠ []) :
    joinSlash (A ++ B) = joinSlash A ++ '/' :: joinSlash B := by
  induction A with
  | nil => exact absurd rfl hA
  | cons x rest ih =>
    cases rest with
    | nil => simp [joinSlash_cons x B hB, joinSlash]
    | cons y rest2 =>
      have h1 : joinSlash (x :: y :: rest2) = x ++ '/' :: joinSlash (y :: rest2) := rfl
      have h2 : joinSlash (x :: (y :: rest2 ++ B)) = x ++ '/' :: joinSlash (y :: rest2 ++ B) :=
        joinSlash_cons x _ (by simp)
      simp only [List.cons_append] at *
      rw [h2, h1, ih (by simp)]
      simp

theorem comps_joinSlash (N : List (List Char)) (h : ∀ c ∈ N, plainChars c) :
    comps (joinSlash N) = N := by
  induction N with
  | nil => simp [joinSlash, comps_nil]
  | cons x rest ih =>
    cases rest with
    | nil => simpa [joinSlash] using comps_plain x (h x (List.mem_cons_self _ _))
    | cons y rest2 =>
      have h1 : joinSlash (x :: y :: rest2) = x ++ '/' :: joinSlash (y :: rest2) := rfl
      rw [h1, comps_append, comps_plain x (h x (List.mem_cons_self _ _)),
        ih (fun c hc => h c (List.mem_cons_of_mem _ hc))]
      rfl

theorem foldl_cleanStep (rooted : Bool) (l st : List (List Char))
    (h : ∀ e ∈ l, e ≠ [] → e ≠ ['.'] ∧ e ≠ ['.', '.']) :
    l.foldl (cleanStep rooted) st = (l.filter (fun e => e ≠ [])).reverse ++ st := by
  induction l generalizing st with
  | nil => simp
  | cons e rest ih =>
    have hrest : ∀ e ∈ rest, e ≠ [] → e ≠ ['.'] ∧ e ≠ ['.', '.'] :=
      fun e he => h e (List.mem_cons_of_mem _ he)
    rw [List.foldl_cons, ih _ hrest]
    by_cases he : e = []
    · simp [cleanStep, he]
    · have h2 := h e (List.mem_cons_self _ _) he
      simp [cleanStep, he, h2.1, h2.2]

theorem Clean_rooted (rest : List Char) (h : ∀ e ∈ comps rest, plainChars e) :
    Clean ⟨'/' :: rest⟩ = ⟨'/' :: joinSlash (comps rest)⟩ := by
  have hs : splitChar '/' ('/' :: rest) = [] :: splitChar '/' rest := by simp [splitChar]
  have hall : ∀ e ∈ splitChar '/' rest, e ≠ [] → e ≠ ['.'] ∧ e ≠ ['.', '.'] := by
    intro e he hne
    have hp := h e (by simp [comps, he, hne])
    exact ⟨hp.2.2.1, hp.2.2.2⟩
  have h0 : ∀ r, cleanStep r [] [] = [] := by
    intro r
    simp [cleanStep]
  unfold Clean
  simp only [hs, List.foldl_cons]
  rw [h0, foldl_cleanStep _ _ [] hall]
  simp [comps]

theorem plainChars_of_plainName (n : String) (h : plainName n = true) : plainChars n.data := by
  simpa [plainName] using h

theorem plain_map (ns : List String) (h : ∀ n ∈ ns, plainName n = true) :
    ∀ c ∈ ns.map String.data, plainChars c := by
  intro c hc
  obtain ⟨n, hn, rfl⟩ := List.mem_map.1 hc
  exact plainChars_of_plainName n (h n hn)

theorem plain_append (a b : List String) (ha : ∀ n ∈ a, plainName n = true)
    (hb : ∀ n ∈ b, plainName n = true) : ∀ n ∈ a ++ b, plainName n = true := by
  intro n hn
  rcases List.mem_append.1 hn with h | h
  · exact ha n h
  · exact hb n h

theorem plain_single (name : String) (h : plainName name = true) :
    ∀ n ∈ [name], plainName n = true := by
  intro n hn
  rw [List.mem_singleton.1 hn]
  exact h

theorem ne_empty_of_plain (n : String) (h : plainName n = true) : n ≠ "" := by
  intro e
  rw [e] at h
  exact absurd h (by decide)

theorem absPath_ne_empty (ns : List String) : absPath ns ≠ "" := by
  intro e
  have := congrArg String.data e
  simp [absPath] at this

theorem joinSlash_ne_nil (N : List (List Char)) (hN : N ≠ []) (h : ∀ c ∈ N, plainChars c) :
    joinSlash N ≠ [] := by
  cases N with
  | nil => exact absurd rfl hN
  | cons x rest =>
    have hx := (h x (List.mem_cons_self _ _)).1
    cases rest with
    | nil => simpa [joinSlash] using hx
    | cons y r =>
      have h1 : joinSlash (x :: y :: r) = x ++ '/' :: joinSlash (y :: r) := rfl
      rw [h1]
      simp

theorem relPath_ne_empty (ms : List String) (hms : ms ≠ [])
    (h : ∀ n ∈ ms, plainName n = true) : relPath ms ≠ "" := by
  intro e
  have := congrArg String.data e
  exact joinSlash_ne_nil (ms.map String.data) (by simpa using hms) (plain_map ms h) this

theorem relPath_nil : relPath [] = "" := rfl

theorem Clean_eq_absPath (rest : List Char) (ns : List String)
    (hp : ∀ n ∈ ns, plainName n = true) (hc : comps rest = ns.map String.data) :
    Clean ⟨'/' :: rest⟩ = absPath ns := by
  rw [Clean_rooted rest (by rw [hc]; exact plain_map ns hp), hc]
  rfl

theorem Clean_absPath (ns : List String) (hp : ∀ n ∈ ns, plainName n = true) :
    Clean (absPath ns) = absPath ns :=
  Clean_eq_absPath _ ns hp (comps_joinSlash _ (plain_map ns hp))

theorem Join_two (a b : String) (ha : a ≠ "") (hb : b ≠ "") :
    Join [a, b] = Clean ⟨a.data ++ '/' :: b.data⟩ := by
  simp [Join, ha, hb, joinSlash]

theorem Join_three (a b c : String) (ha : a ≠ "") (hb : b ≠ "") (hc : c ≠ "") :
    Join [a, b, c] = Clean ⟨a.data ++ '/' :: (b.data ++ '/' :: c.data)⟩ := by
  simp [Join, ha, hb, hc, joinSlash]

theorem Join_abs_name (ns : List String) (name : String)
    (hp : ∀ n ∈ ns, plainName n = true) (hn : plainName name = true) :
    Join [absPath ns, name] = absPath (ns ++ [name]) := by
  rw [Join_two _ _ (absPath_ne_empty ns) (ne_empty_of_plain name hn)]
  apply Clean_eq_absPath _ _ (plain_append _ _ hp (plain_single name hn))
  simp [comps_append, comps_joinSlash _ (plain_map ns hp),
    comps_plain _ (plainChars_of_plainName name hn)]

theorem Join_root_name (ns : List String) (name : String)
    (hp : ∀ n ∈ ns, plainName n = true) (hn : plainName name = true) :
    Join [absPath ns ++ "/", name] = absPath (ns ++ [name]) := by
  have hne : absPath ns ++ "/" ≠ "" := by
    intro e
    have := congrArg String.data e
    simp [absPath] at this
  rw [Join_two _ _ hne (ne_empty_of_plain name hn)]
  have hd : (absPath ns ++ "/").data ++ '/' :: name.data
      = '/' :: (joinSlash (ns.map String.data) ++ '/' :: ([] ++ '/' :: name.data)) := by
    simp [absPath]
  rw [hd]
  apply Clean_eq_absPath _ _ (plain_append _ _ hp (plain_single name hn))
  rw [comps_append, comps_append, comps_nil, comps_joinSlash _ (plain_map ns hp),
    comps_plain _ (plainChars_of_plainName name hn)]
  simp

theorem Join_abs_rel (ns ms : List String) (hms : ms ≠ [])
    (hp : ∀ n ∈ ns, plainName n = true) (hm : ∀ n ∈ ms, plainName n = true) :
    Join [absPath ns, relPath ms] = absPath (ns ++ ms) := by
  rw [Join_two _ _ (absPath_ne_empty ns) (relPath_ne_empty ms hms hm)]
  apply Clean_eq_absPath _ _ (plain_append _ _ hp hm)
  simp [relPath, comps_append, comps_joinSlash _ (plain_map ns hp),
    comps_joinSlash _ (plain_map ms hm)]

theorem Join_abs_src_rel (ns ms : List String) (hms : ms ≠ [])
    (hp : ∀ n ∈ ns, plainName n = true) (hm : ∀ n ∈ ms, plainName n = true) :
    Join [absPath ns, "src", relPath ms] = absPath (ns ++ "src" :: ms) := by
  rw [Join_three _ _ _ (absPath_ne_empty ns) (by decide) (relPath_ne_empty ms hms hm)]
  have hsrc : ∀ n ∈ ["src"], plainName n = true := plain_single "src" (by decide)
  have hall : ∀ n ∈ ns ++ "src" :: ms, plainName n = true := by
    have := plain_append _ _ hp (plain_append _ _ hsrc hm)
    simpa using this
  have hs : comps "src".data = ["src".data] := comps_plain _ (by decide)
  have hd : (absPath ns).data ++ '/' :: ("src".data ++ '/' :: (relPath ms).data)
      = '/' :: (joinSlash (ns.map String.data)
          ++ '/' :: ("src".data ++ '/' :: joinSlash (ms.map String.data))) := rfl
  rw [hd]
  apply Clean_eq_absPath _ _ hall
  rw [comps_append, comps_append, hs, comps_joinSlash _ (plain_map ns hp),
    comps_joinSlash _ (plain_map ms hm)]
  simp

theorem lookup_of_Clean (fs : Entry) (p : String) (ns : List String)
    (hp : ∀ n ∈ ns, plainName n = true) (h : Clean p = absPath ns) :
    lookup fs p = descend fs ns := by
  unfold lookup
  rw [h]
  have hs : splitChar '/' (absPath ns).data
      = [] :: splitChar '/' (joinSlash (ns.map String.data)) := by
    simp [absPath, splitChar]
  have hf : (([] : List Char) :: splitChar '/' (joinSlash (ns.map String.data))).filter
      (fun e => decide (e ≠ [] ∧ e ≠ ['.'])) = ns.map String.data := by
    have hc := comps_joinSlash _ (plain_map ns hp)
    have h1 : (([] : List Char) :: splitChar '/' (joinSlash (ns.map String.data))).filter
        (fun e => decide (e ≠ [] ∧ e ≠ ['.']))
        = (comps (joinSlash (ns.map String.data))).filter (fun e => decide (e ≠ ['.'])) := by
      unfold comps
      rw [List.filter_filter]
      simp only [ne_eq, not_true_eq_false, false_and, decide_False, Bool.false_eq_true,
        not_false_eq_true, List.filter_cons_of_neg]
      apply List.filter_congr
      intro e _
      by_cases h1 : e = [] <;> by_cases h2 : e = ['.'] <;> simp [h1, h2]
    rw [h1, hc]
    apply List.filter_eq_self.2
    intro c hcm
    simpa using (plain_map ns hp c hcm).2.2.1
  rw [hs, hf]
  congr 1
  simp [List.map_map]
  apply List.map_id''
  intro n
  rfl

theorem lookup_absPath (fs : Entry) (ns : List String) (hp : ∀ n ∈ ns, plainName n = true) :
    lookup fs (absPath ns) = descend fs ns :=
  lookup_of_Clean fs _ ns hp (Clean_absPath ns hp)

theorem lookup_root (fs : Entry) (ns : List String) (hp : ∀ n ∈ ns, plainName n = true) :
    lookup fs (absPath ns ++ "/") = descend fs ns := by
  apply lookup_of_Clean fs _ ns hp
  have hd : absPath ns ++ "/" = ⟨'/' :: (joinSlash (ns.map String.data) ++ '/' :: [])⟩ := by
    apply String.ext
    simp [absPath]
  rw [hd]
  apply Clean_eq_absPath _ _ hp
  rw [comps_append, comps_nil, comps_joinSlash _ (plain_map ns hp)]
  simp

theorem dropSlashes_append (S rest : List Char) (hS : ∀ c ∈ S, c = '/') :
    dropSlashes (S ++ rest) = dropSlashes rest := by
  induction S with
  | nil => rfl
  | cons c cs ih =>
    have hc : c = '/' := hS c (List.mem_cons_self _ _)
    simp [dropSlashes, hc, ih (fun c h => hS c (List.mem_cons_of_mem _ h))]

theorem dropSlashes_plain (x rest : List Char) (hx : x ≠ []) (hs : '/' ∉ x) :
    dropSlashes (x ++ rest) = x ++ rest := by
  cases x with
  | nil => exact absurd rfl hx
  | cons c cs =>
    have hc : ¬ c = '/' := fun e => hs (by simp [e])
    simp [dropSlashes, hc]

theorem takeWhile_slash (x rest : List Char) (hs : '/' ∉ x) :
    (x ++ '/' :: rest).takeWhile (fun c => decide (c ≠ '/')) = x := by
  induction x with
  | nil => simp
  | cons c cs ih =>
    simp only [List.mem_cons, not_or] at hs
    have hc : ¬ c = '/' := fun e => hs.1 e.symm
    have ih2 := ih hs.2
    simp only [List.cons_append, List.takeWhile_cons]
    simp only [ne_eq, hc, not_false_eq_true, decide_True, if_true]
    rw [ih2]

theorem Base_of_data (p : String) (P x S : List Char) (hx : plainChars x)
    (hS : ∀ c ∈ S, c = '/') (hd : p.data = P ++ '/' :: x ++ S) : Base p = ⟨x⟩ := by
  have hne : p ≠ "" := by
    intro e
    rw [e] at hd
    have := congrArg List.length hd
    simp at this
    omega
  have hrev : p.data.reverse = S.reverse ++ (x.reverse ++ '/' :: P.reverse) := by
    rw [hd]
    simp
  have hxr : x.reverse ≠ [] := by simpa using hx.1
  have hsr : '/' ∉ x.reverse := by simpa using hx.2.1
  unfold Base
  simp only [hne, if_false, hrev]
  rw [dropSlashes_append _ _ (by simpa using hS), dropSlashes_plain _ _ hxr hsr,
    takeWhile_slash _ _ hsr]
  simp [hx.1]

theorem absPath_snoc_data (ns : List String) (name : String) :
    ∃ P, (absPath (ns ++ [name])).data = P ++ '/' :: name.data := by
  cases hns : ns with
  | nil => exact ⟨[], by simp [absPath, joinSlash]⟩
  | cons n rest =>
    refine ⟨'/' :: joinSlash ((n :: rest).map String.data), ?_⟩
    have := joinSlash_append ((n :: rest).map String.data) [name.data] (by simp) (by simp)
    simp only [absPath, List.map_append, List.map_cons, List.map_nil] at *
    rw [this]
    simp [joinSlash]

theorem Base_abs (ns : List String) (name : String) (hn : plainName name = true) :
    Base (absPath (ns ++ [name])) = name := by
  obtain ⟨P, hP⟩ := absPath_snoc_data ns name
  exact Base_of_data _ P name.data [] (plainChars_of_plainName name hn) (by simp) (by simpa using hP)

theorem Base_root (ns : List String) (name : String) (hn : plainName name = true) :
    Base (absPath (ns ++ [name]) ++ "/") = name := by
  obtain ⟨P, hP⟩ := absPath_snoc_data ns name
  refine Base_of_data _ P name.data ['/'] (plainChars_of_plainName name hn) (by simp) ?_
  rw [String.data_append, hP]

theorem TrimPrefix_append (a b : String) : TrimPrefix (a ++ b) a = b := by
  have hp : HasPrefix (a ++ b) a = true := by
    unfold HasPrefix
    rw [hasPrefixL_iff, String.data_append]
    exact List.prefix_append _ _
  unfold TrimPrefix
  rw [if_pos hp]
  apply String.ext
  simp [String.data_append]

theorem absPath_append (ns ms : List String) (hns : ns ≠ []) (hms : ms ≠ []) :
    absPath (ns ++ ms) = (absPath ns ++ "/") ++ relPath ms := by
  apply String.ext
  have := joinSlash_append (ns.map String.data) (ms.map String.data) (by simpa using hns)
    (by simpa using hms)
  simp only [absPath, relPath, String.data_append, List.map_append]
  rw [this]
  simp

theorem pkgOf_abs (ns ms : List String) (hns : ns ≠ []) (hms : ms ≠ []) :
    pkgOf (absPath ns ++ "/") (absPath (ns ++ ms)) = relPath ms := by
  unfold pkgOf ToSlash
  rw [absPath_append ns ms hns hms, TrimPrefix_append]

theorem pkgOf_root (root : String) : pkgOf root root = "" := by
  unfold pkgOf ToSlash
  have := TrimPrefix_append root ""
  simpa using this

theorem relPath_eq_builtin (ms : List String) (hm : ∀ n ∈ ms, plainName n = true) :
    relPath ms = "builtin" ↔ ms = ["builtin"] := by
  constructor
  · intro h
    have hd : joinSlash (ms.map String.data) = "builtin".data := congrArg String.data h
    have hc := comps_joinSlash _ (plain_map ms hm)
    rw [hd, comps_plain _ (by decide)] at hc
    cases ms with
    | nil => simp at hc
    | cons n rest =>
      cases rest with
      | nil =>
        simp only [List.map_cons, List.map_nil, List.cons.injEq, and_true] at hc
        have : n = "builtin" := String.ext hc.symm
        rw [this]
      | cons m r => simp at hc
  · intro h
    rw [h]
    rfl

theorem pruned_eq (root dir name : String) (hb : Base dir = name) (hn : name ≠ "") :
    pruned root dir = (skipName name || decide (pkgOf root dir = "builtin")) := by
  unfold pruned skipName
  simp only [hb, hn, decide_False, Bool.false_or]
  by_cases h1 : name.data.head? = some '.'
  · simp [h1]
  · by_cases h2 : name.data.head? = some '_'
    · simp [h2]
    · by_cases h3 : name = "testdata"
      · simp [h3]
      · simp only [h1, h2, h3, decide_False, Bool.false_or, Bool.or_self, Bool.false_eq_true,
          if_false]
        split
        · rename_i h
          simp [h]
        · rename_i h
          have : ¬ pkgOf root dir = "builtin" := fun e => h e
          simp [this]

/-! ## The walk visits the directories of the tree -/

theorem wfEntry_dir (name : String) (err : Option String) (entries : List Entry)
    (h : wfEntry (.dir name err entries) = true) :
    wfList entries = true ∧ (∀ e ∈ entries, plainName e.Name = true)
      ∧ (entries.map Entry.Name).Nodup := by
  simp only [wfEntry, Bool.and_eq_true, List.all_eq_true, decide_eq_true_eq] at h
  exact ⟨h.1.1, h.1.2, h.2⟩

theorem emit_rel (rel : List String) (hrel : rel ≠ []) (hp : ∀ n ∈ rel, plainName n = true)
    (err : Option String) : emit (relPath rel) err = [⟨relPath rel, err⟩] := by
  simp [emit, relPath_ne_empty rel hrel hp]

theorem pruned_abs (ns0 pre : List String) (name : String) (h0 : ns0 ≠ [])
    (hpre : ∀ n ∈ pre, plainName n = true) (hn : plainName name = true) :
    pruned (absPath ns0 ++ "/") (absPath (ns0 ++ (pre ++ [name])))
      = (skipName name || decide (pre ++ [name] = ["builtin"])) := by
  have hb : Base (absPath (ns0 ++ (pre ++ [name]))) = name := by
    rw [← List.append_assoc]
    exact Base_abs _ name hn
  rw [pruned_eq _ _ name hb (ne_empty_of_plain name hn), pkgOf_abs ns0 _ h0 (by simp)]
  congr 1
  have := relPath_eq_builtin (pre ++ [name]) (plain_append _ _ hpre (plain_single name hn))
  by_cases h : relPath (pre ++ [name]) = "builtin"
  · rw [decide_eq_true h, decide_eq_true (this.1 h)]
  · rw [decide_eq_false h, decide_eq_false (fun e => h (this.2 e))]

mutual
theorem walkDir_crawl (ns0 : List String) (h0 : ns0 ≠ [])
    (hp0 : ∀ n ∈ ns0, plainName n = true) :
    (e : Entry) → (pre : List String) → (∀ n ∈ pre, plainName n = true) →
    plainName e.Name = true → wfEntry e = true → e.IsDir = true →
    walkDir (absPath ns0 ++ "/") (absPath (ns0 ++ (pre ++ [e.Name]))) e
      = (crawlDirs (pre ++ [e.Name]) e).map crawlItem
  | .file _ _, _, _, _, _, hd => by simp [Entry.IsDir] at hd
  | .dir name (some err) entries, pre, hpre, hn, _, _ => by
    have hn2 : plainName name = true := hn
    have hpr := pruned_abs ns0 pre name h0 hpre hn2
    have hpk : pkgOf (absPath ns0 ++ "/") (absPath (ns0 ++ (pre ++ [name])))
        = relPath (pre ++ [name]) := pkgOf_abs ns0 _ h0 (by simp)
    have hem := emit_rel (pre ++ [name]) (by simp) (plain_append _ _ hpre (plain_single name hn2))
      (some err)
    simp only [Entry.Name, walkDir, crawlDirs, hpr, hpk, hem]
    split <;> simp [crawlItem, Entry.listErr]
  | .dir name none entries, pre, hpre, hn, hwf, _ => by
    have hn2 : plainName name = true := hn
    have hpr := pruned_abs ns0 pre name h0 hpre hn2
    have hpk : pkgOf (absPath ns0 ++ "/") (absPath (ns0 ++ (pre ++ [name])))
        = relPath (pre ++ [name]) := pkgOf_abs ns0 _ h0 (by simp)
    have hrelp := plain_append _ _ hpre (plain_single name hn2)
    have hem := emit_rel (pre ++ [name]) (by simp) hrelp none
    obtain ⟨hw1, hw2, _⟩ := wfEntry_dir name none entries hwf
    have hD : ∀ nm, plainName nm = true →
        Join [absPath (ns0 ++ (pre ++ [name])), nm]
          = absPath (ns0 ++ ((pre ++ [name]) ++ [nm])) := by
      intro nm hnm
      rw [Join_abs_name _ nm (plain_append _ _ hp0 hrelp) hnm, List.append_assoc]
    have ih := walkFiles_crawl ns0 h0 hp0 entries _ (pre ++ [name]) hD hrelp hw2 hw1
    simp only [Entry.Name, walkDir, crawlDirs, hpr, hpk, hem, ih]
    split <;> simp [crawlItem, Entry.listErr]
theorem walkFiles_crawl (ns0 : List String) (h0 : ns0 ≠ [])
    (hp0 : ∀ n ∈ ns0, plainName n = true) :
    (es : List Entry) → (D : String) → (rel : List String) →
    (∀ nm, plainName nm = true → Join [D, nm] = absPath (ns0 ++ (rel ++ [nm]))) →
    (∀ n ∈ rel, plainName n = true) → (∀ e ∈ es, plainName e.Name = true) →
    wfList es = true →
    walkFiles (absPath ns0 ++ "/") D es = (crawlDirsList rel es).map crawlItem
  | [], _, _, _, _, _, _ => by simp [walkFiles, crawlDirsList]
  | .file name src :: rest, D, rel, hD, hrel, hes, hwf => by
    simp only [wfList, Bool.and_eq_true] at hwf
    have ih := walkFiles_crawl ns0 h0 hp0 rest D rel hD hrel
      (fun e he => hes e (List.mem_cons_of_mem _ he)) hwf.2
    simp [walkFiles, crawlDirsList, ih]
  | .dir name err entries :: rest, D, rel, hD, hrel, hes, hwf => by
    simp only [wfList, Bool.and_eq_true] at hwf
    have hn : plainName name = true := hes (.dir name err entries) (List.mem_cons_self _ _)
    have ih := walkFiles_crawl ns0 h0 hp0 rest D rel hD hrel
      (fun e he => hes e (List.mem_cons_of_mem _ he)) hwf.2
    have ih2 := walkDir_crawl ns0 h0 hp0 (.dir name err entries) rel hrel hn hwf.1 rfl
    simp only [Entry.Name] at ih2
    simp [walkFiles, crawlDirsList, ih, hD name hn, ih2]
end

theorem findEntry_cons_ne (name : String) (e : Entry) (es : List Entry) (h : e.Name ≠ name) :
    findEntry name (e :: es) = findEntry name es := by
  simp [findEntry, h]

theorem findEntry_name (name : String) (es : List Entry) (c : Entry)
    (h : findEntry name es = some c) : c.Name = name ∧ c ∈ es := by
  induction es with
  | nil => simp [findEntry] at h
  | cons e rest ih =>
    unfold findEntry at h
    split at h
    · rename_i he
      cases h
      exact ⟨he, List.mem_cons_self _ _⟩
    · exact ⟨(ih h).1, List.mem_cons_of_mem _ (ih h).2⟩

theorem descend_dir_cons (name0 : String) (err : Option String) (entries : List Entry)
    (name : String) (suf : List String) (c : Entry) (h : findEntry name entries = some c) :
    descend (.dir name0 err entries) (name :: suf) = descend c suf := by
  simp [descend, h]

mutual
theorem crawlDirs_mem : (e : Entry) → (rel : List String) → (p : List String × Entry) →
    wfEntry e = true → p ∈ crawlDirs rel e →
    ∃ suf, p.1 = rel ++ suf ∧ descend e suf = some p.2 ∧ ∀ n ∈ suf, plainName n = true
  | .file _ _, _, _, _, hp => by simp [crawlDirs] at hp
  | .dir name (some err) entries, rel, p, _, hp => by
    unfold crawlDirs at hp
    split at hp
    · simp at hp
    · rw [List.mem_singleton.1 hp]
      exact ⟨[], by simp, by simp [descend], by simp⟩
  | .dir name none entries, rel, p, hwf, hp => by
    obtain ⟨hw1, hw2, hw3⟩ := wfEntry_dir name none entries hwf
    unfold crawlDirs at hp
    split at hp
    · simp at hp
    · rcases List.mem_cons.1 hp with h | h
      · rw [h]
        exact ⟨[], by simp, by simp [descend], by simp⟩
      · obtain ⟨nm, suf, c, h1, h2, h3, h4, h5⟩ :=
          crawlDirsList_mem entries rel p hw1 hw2 hw3 h
        refine ⟨nm :: suf, h1, ?_, ?_⟩
        · rw [descend_dir_cons name none entries nm suf c h2]
          exact h3
        · intro n hn
          rcases List.mem_cons.1 hn with e | e
          · rw [e]; exact h4
          · exact h5 n e
theorem crawlDirsList_mem : (es : List Entry) → (rel : List String) →
    (p : List String × Entry) → wfList es = true → (∀ e ∈ es, plainName e.Name = true) →
    (es.map Entry.Name).Nodup → p ∈ crawlDirsList rel es →
    ∃ name suf c, p.1 = rel ++ name :: suf ∧ findEntry name es = some c
      ∧ descend c suf = some p.2 ∧ plainName name = true ∧ ∀ n ∈ suf, plainName n = true
  | [], _, _, _, _, _, hp => by simp [crawlDirsList] at hp
  | .file name src :: rest, rel, p, hwf, hes, hnd, hp => by
    simp only [wfList, Bool.and_eq_true] at hwf
    simp only [List.map_cons, List.nodup_cons] at hnd
    simp only [crawlDirsList] at hp
    obtain ⟨nm, suf, c, h1, h2, h3, h4, h5⟩ := crawlDirsList_mem rest rel p hwf.2
      (fun e he => hes e (List.mem_cons_of_mem _ he)) hnd.2 hp
    refine ⟨nm, suf, c, h1, ?_, h3, h4, h5⟩
    rw [findEntry_cons_ne nm _ rest ?_]
    · exact h2
    · intro e
      have := findEntry_name nm rest c h2
      apply hnd.1
      rw [e, ← this.1]
      exact List.mem_map_of_mem _ this.2
  | .dir name err entries :: rest, rel, p, hwf, hes, hnd, hp => by
    simp only [wfList, Bool.and_eq_true] at hwf
    simp only [List.map_cons, List.nodup_cons] at hnd
    simp only [crawlDirsList, List.mem_append] at hp
    rcases hp with hp | hp
    · obtain ⟨suf, h1, h2, h3⟩ := crawlDirs_mem (.dir name err entries) (rel ++ [name]) p hwf.1 hp
      refine ⟨name, suf, .dir name err entries, by simpa using h1, by simp [findEntry, Entry.Name],
        h2, hes _ (List.mem_cons_self _ _), h3⟩
    · obtain ⟨nm, suf, c, h1, h2, h3, h4, h5⟩ := crawlDirsList_mem rest rel p hwf.2
        (fun e he => hes e (List.mem_cons_of_mem _ he)) hnd.2 hp
      refine ⟨nm, suf, c, h1, ?_, h3, h4, h5⟩
      rw [findEntry_cons_ne nm _ rest ?_]
      · exact h2
      · intro e
        have := findEntry_name nm rest c h2
        apply hnd.1
        rw [e, ← this.1]
        exact List.mem_map_of_mem _ this.2
end

theorem descend_append (e : Entry) (a b : List String) (c : Entry)
    (h : descend e a = some c) : descend e (a ++ b) = descend c b := by
  induction a generalizing e with
  | nil =>
    simp only [descend] at h
    cases h
    rfl
  | cons n rest ih =>
    cases e with
    | file name src => simp [descend] at h
    | dir name err entries =>
      simp only [List.cons_append, descend] at h ⊢
      cases hf : findEntry n entries with
      | none => simp [hf] at h
      | some x =>
        simp only [hf] at h ⊢
        exact ih x h

theorem descend_name (e : Entry) (pre : List String) (name : String) (c : Entry)
    (h : descend e (pre ++ [name]) = some c) : c.Name = name := by
  induction pre generalizing e with
  | nil =>
    cases e with
    | file nm src => simp [descend] at h
    | dir nm err entries =>
      simp only [List.nil_append, descend] at h
      cases hf : findEntry name entries with
      | none => simp [hf] at h
      | some x =>
        simp only [hf, descend] at h
        cases h
        exact (findEntry_name name entries _ hf).1
  | cons n rest ih =>
    cases e with
    | file nm src => simp [descend] at h
    | dir nm err entries =>
      simp only [List.cons_append, descend] at h
      cases hf : findEntry n entries with
      | none => simp [hf] at h
      | some x =>
        simp only [hf] at h
        exact ih x h

mutual
theorem wfEntry_descend : (e : Entry) → (names : List String) → (c : Entry) →
    wfEntry e = true → descend e names = some c → wfEntry c = true
  | e, [], c, hwf, h => by
    simp only [descend] at h
    cases h
    exact hwf
  | .file _ _, _ :: _, _, _, h => by simp [descend] at h
  | .dir name err entries, n :: ns, c, hwf, h => by
    obtain ⟨hw1, _, _⟩ := wfEntry_dir name err entries hwf
    simp only [descend] at h
    cases hf : findEntry n entries with
    | none => simp [hf] at h
    | some x =>
      simp only [hf] at h
      exact wfList_descend entries n ns x c hw1 hf h
theorem wfList_descend : (es : List Entry) → (n : String) → (ns : List String) →
    (x c : Entry) → wfList es = true → findEntry n es = some x → descend x ns = some c →
    wfEntry c = true
  | [], _, _, _, _, _, hf, _ => by simp [findEntry] at hf
  | e :: rest, n, ns, x, c, hwf, hf, h => by
    simp only [wfList, Bool.and_eq_true] at hwf
    unfold findEntry at hf
    split at hf
    · cases hf
      exact wfEntry_descend e ns c hwf.1 h
    · exact wfList_descend rest n ns x c hwf.2 hf h
end

/-! ## The run on a tree -/

theorem sum_addFile (w : File → Nat) (name filename : String) (src : File)
    (pkgs : List Package) :
    ((filesOf (addFile name filename src pkgs)).map w).sum
      = ((filesOf pkgs).map w).sum + w src := by
  induction pkgs with
  | nil => simp [addFile, filesOf]
  | cons p rest ih =>
    unfold addFile
    split
    · simp [filesOf, List.flatMap_cons]
      omega
    · have ih2 : (List.map w (filesOf (addFile name filename src rest))).sum
          = (List.map w (filesOf rest)).sum + w src := ih
      simp only [filesOf, List.flatMap_cons, List.map_append, List.sum_append] at ih2 ⊢
      rw [ih2]
      omega

theorem sum_parseEntries (w : File → Nat) (path : String) (entries : List Entry)
    (pkgs : List Package) :
    ((filesOf (parseEntries path entries pkgs)).map w).sum
      = ((filesOf pkgs).map w).sum + ((goFiles entries).map w).sum := by
  induction entries generalizing pkgs with
  | nil => simp [parseEntries, goFiles]
  | cons e rest ih =>
    cases e with
    | dir name err es => simpa [parseEntries, goFiles] using ih pkgs
    | file name src =>
      cases src with
      | none => simpa [parseEntries, goFiles] using ih pkgs
      | some src =>
        unfold parseEntries goFiles
        split
        · rw [ih, sum_addFile]
          simp
          omega
        · exact ih pkgs

theorem ReadDir_abs (fs : Entry) (ns : List String) (hp : ∀ n ∈ ns, plainName n = true) :
    ReadDir fs (absPath ns)
      = match descend fs ns with
        | none => ([], some "no such file or directory")
        | some (.file _ _) => ([], some "not a directory")
        | some (.dir _ (some e) _) => ([], some e)
        | some (.dir _ none entries) => (entries, none) := by
  unfold ReadDir
  rw [lookup_absPath fs ns hp]

theorem sum_ParseDir (w : File → Nat) (fs : Entry) (ns : List String)
    (hp : ∀ n ∈ ns, plainName n = true) (d : Entry) (h : descend fs ns = some d) :
    ((filesOf (ParseDir fs (absPath ns))).map w).sum = ((dirFiles d).map w).sum := by
  unfold ParseDir
  rw [ReadDir_abs fs ns hp, h]
  cases d with
  | file name src => simp [filesOf, dirFiles]
  | dir name err entries =>
    cases err with
    | some e => simp [filesOf, dirFiles]
    | none =>
      simp only [dirFiles]
      rw [sum_parseEntries]
      simp [filesOf]

theorem ParseDir_unlistable (fs : Entry) (ns : List String)
    (hp : ∀ n ∈ ns, plainName n = true) (name err : String) (entries : List Entry)
    (h : descend fs ns = some (.dir name (some err) entries)) :
    ParseDir fs (absPath ns) = [] := by
  unfold ParseDir
  rw [ReadDir_abs fs ns hp, h]

theorem length_flatMap_eq_sum {α : Type} (L : List α) (f : α → List symbol)
    (g : α → List File) (w : File → Nat)
    (h : ∀ p ∈ L, (f p).length = ((g p).map w).sum) :
    (L.flatMap f).length = ((L.flatMap g).map w).sum := by
  induction L with
  | nil => rfl
  | cons p rest ih =>
    simp only [List.flatMap_cons, List.length_append, List.map_append, List.sum_append]
    rw [h p (List.mem_cons_self _ _), ih (fun x hx => h x (List.mem_cons_of_mem _ hx))]

theorem length_extract (fs : Entry) (fset : FileSet) (haveSrcDir : Bool)
    (dir query path : String) :
    (extract fs fset haveSrcDir dir query path).length
      = ((filesOf (ParseDir fs (unitDir haveSrcDir dir path))).map (reachCount query)).sum := by
  rw [extract_eq, length_symsOfPackages]
  rfl

theorem dispatch_crawl (L : List (List String × Entry))
    (hL : ∀ p ∈ L, relPath p.1 ≠ "") :
    ((L.map crawlItem).filter (fun i => i.importPath ≠ "")).map item.importPath
      = L.map (fun p => relPath p.1) := by
  induction L with
  | nil => rfl
  | cons p rest ih =>
    have h1 := hL p (List.mem_cons_self _ _)
    simp only [List.map_cons, crawlItem, ne_eq, h1, not_false_eq_true, decide_True,
      List.filter_cons_of_pos]
    rw [← ih (fun x hx => hL x (List.mem_cons_of_mem _ hx))]

theorem allPackages_abs (fs : Entry) (r : List String) (hpr : ∀ n ∈ r, plainName n = true) :
    allPackages fs (absPath r)
      = walkDir (absPath r ++ "/") (absPath r ++ "/")
          (match descend fs r with
           | some e => e
           | none => .dir "" (some "no such file or directory") []) := by
  unfold allPackages
  simp only [Clean_absPath r hpr, lookup_root fs r hpr]
  cases descend fs r <;> rfl

/-- The symbols of a run that walks the one root `/r1/.../rk`, when the directory of the unit
`rel` is resolved as `/r1/.../rk/rel`. -/
theorem length_run_root (fs : Entry) (fset : FileSet) (haveSrcDir : Bool) (dir query : String)
    (r : List String) (hr : r ≠ []) (hpr : ∀ n ∈ r, plainName n = true)
    (hwf : wfEntry fs = true)
    (hu : ∀ rel, rel ≠ [] → (∀ n ∈ rel, plainName n = true) →
      unitDir haveSrcDir dir (relPath rel) = absPath (r ++ rel)) :
    ((allPackages fs (absPath r)).foldl (found fs fset haveSrcDir dir query) []).length
      = match descend fs r with
        | some root => ((crawledFiles root).map (reachCount query)).sum
        | none => 0 := by
  obtain ⟨pre, name, hrn⟩ : ∃ pre name, r = pre ++ [name] :=
    ⟨r.dropLast, r.getLast hr, (List.dropLast_append_getLast hr).symm⟩
  have hname : plainName name = true := hpr name (by rw [hrn]; simp)
  have hbase : Base (absPath r ++ "/") = name := by
    rw [hrn]
    exact Base_root pre name hname
  have hpruned : pruned (absPath r ++ "/") (absPath r ++ "/") = skipName name := by
    rw [pruned_eq _ _ name hbase (ne_empty_of_plain name hname), pkgOf_root]
    simp
  rw [foldl_found, List.nil_append, allPackages_abs fs r hpr]
  cases hd : descend fs r with
  | none =>
    simp only [walkDir, hpruned, pkgOf_root]
    split <;> simp [emit]
  | some root =>
    have hrootname : root.Name = name := descend_name fs pre name root (by rw [← hrn]; exact hd)
    have hwfroot := wfEntry_descend fs r root hwf hd
    cases root with
    | file nm src =>
      simp only [walkDir, hpruned, pkgOf_root, crawledFiles, crawlDirs]
      split <;> simp [emit]
    | dir nm err entries =>
      simp only [Entry.Name] at hrootname
      subst hrootname
      cases err with
      | some e =>
        simp only [walkDir, hpruned, pkgOf_root, crawledFiles, crawlDirs]
        by_cases hskip : skipName nm = true <;> simp [hskip, emit]
      | none =>
        obtain ⟨hw1, hw2, hw3⟩ := wfEntry_dir nm none entries hwfroot
        have hD : ∀ x, plainName x = true →
            Join [absPath r ++ "/", x] = absPath (r ++ ([] ++ [x])) := by
          intro x hx
          exact Join_root_name r x hpr hx
        have hwalk := walkFiles_crawl r hr hpr entries (absPath r ++ "/") [] hD (by simp) hw2 hw1
        simp only [walkDir, hpruned, pkgOf_root, crawledFiles, crawlDirs, hwalk]
        by_cases hskip : skipName nm = true
        · simp [hskip]
        · have hmem : ∀ p ∈ crawlDirsList [] entries,
              ∃ suf, p.1 ≠ [] ∧ (∀ n ∈ p.1, plainName n = true)
                ∧ descend fs (r ++ p.1) = some p.2 ∧ suf = p.1 := by
            intro p hp
            obtain ⟨x, suf, c, h1, h2, h3, h4, h5⟩ :=
              crawlDirsList_mem entries [] p hw1 hw2 hw3 hp
            simp only [List.nil_append] at h1
            refine ⟨p.1, by rw [h1]; simp, ?_, ?_, rfl⟩
            · intro n hn
              rw [h1] at hn
              rcases List.mem_cons.1 hn with e | e
              · rw [e]; exact h4
              · exact h5 n e
            · rw [descend_append fs r p.1 _ hd, h1,
                descend_dir_cons nm none entries x suf c h2]
              exact h3
          have hne : ∀ p ∈ crawlDirsList [] entries, relPath p.1 ≠ "" := by
            intro p hp
            obtain ⟨_, h1, h2, _, _⟩ := hmem p hp
            exact relPath_ne_empty p.1 h1 h2
          have hem : emit "" (none : Option String) = [] := by simp [emit]
          simp only [hskip, Bool.false_eq_true, if_false, hem, List.nil_append,
            dispatch_crawl _ hne, Bool.false_or, decide_False, List.nil_eq, reduceCtorEq,
            List.flatMap_cons, if_true]
          rw [List.flatMap_map]
          apply length_flatMap_eq_sum
          intro p hp
          obtain ⟨_, h1, h2, h3, _⟩ := hmem p hp
          rw [length_extract, hu p.1 h1 h2, sum_ParseDir _ fs _ (plain_append _ _ hpr h2) p.2 h3]
          simp [h1]

theorem SplitList_abs (ns : List String) (hcolon : ':' ∉ (absPath ns).data) :
    SplitList (absPath ns) = [absPath ns] := by
  unfold SplitList
  rw [if_neg (absPath_ne_empty ns), splitChar_of_not_mem ':' _ hcolon]
  rfl

theorem gopath_abs (ns : List String) (hcolon : ':' ∉ (absPath ns).data) :
    Context.gopath { GOROOT := "", GOPATH := absPath ns } = [absPath ns] := by
  unfold Context.gopath
  simp only [SplitList_abs ns hcolon]
  have h1 : HasPrefix (absPath ns) "~" = false := by
    simp [HasPrefix, absPath, hasPrefixL]
  simp [absPath_ne_empty ns, h1]

theorem SrcDirs_abs (fs : Entry) (ns : List String) (hp : ∀ n ∈ ns, plainName n = true)
    (hcolon : ':' ∉ (absPath ns).data) :
    Context.SrcDirs fs { GOROOT := "", GOPATH := absPath ns }
      = if isDir fs (absPath (ns ++ ["src"])) = true then [absPath (ns ++ ["src"])] else [] := by
  unfold Context.SrcDirs
  simp only [gopath_abs ns hcolon, List.map_cons, List.map_nil,
    Join_abs_name ns "src" hp (by decide)]
  by_cases h : isDir fs (absPath (ns ++ ["src"])) = true <;> simp [h]

theorem length_DoCoreMain_tree (fs : Entry) (fset : FileSet) (ns : List String) (query : String)
    (hwf : wfEntry fs = true) (hns : ns ≠ []) (hp : ∀ n ∈ ns, plainName n = true)
    (hcolon : ':' ∉ (absPath ns).data) :
    (DoCoreMain fs fset true (absPath ns) query).1.length
      = ((treeFiles fs ns).map (reachCount query)).sum := by
  have hsrcp : ∀ n ∈ ns ++ ["src"], plainName n = true :=
    plain_append _ _ hp (plain_single "src" (by decide))
  have hj : Join [absPath ns, "src"] = absPath (ns ++ ["src"]) :=
    Join_abs_name ns "src" hp (by decide)
  have hlook := lookup_absPath fs (ns ++ ["src"]) hsrcp
  unfold DoCoreMain treeFiles crawlRoot
  simp only [nextHaveSrcDir, statOk, hj, hlook, forEachPackage, srcDirs]
  cases hd : descend fs (ns ++ ["src"]) with
  | none =>
    simp only [Option.isSome_none, Bool.false_eq_true, if_false, List.flatMap_cons,
      List.flatMap_nil, List.append_nil]
    rw [length_run_root fs fset false (absPath ns) query ns hns hp hwf
      (fun rel hrel hprel => Join_abs_rel ns rel hrel hp hprel)]
    cases descend fs ns <;> rfl
  | some e =>
    have hisdir : isDir fs (absPath (ns ++ ["src"])) = e.IsDir := by
      simp [isDir, hlook, hd]
    simp only [Option.isSome_some, if_true, SrcDirs_abs fs ns hp hcolon, hisdir]
    cases e with
    | file name src => simp [Entry.IsDir]
    | dir name err entries =>
      simp only [Entry.IsDir, if_true, List.flatMap_cons, List.flatMap_nil, List.append_nil]
      have := length_run_root fs fset true (absPath ns) query (ns ++ ["src"]) (by simp) hsrcp hwf
        (fun rel hrel hprel => by
          rw [unitDir, if_pos rfl, Join_abs_src_rel ns rel hrel hp hprel]
          simp)
      rw [this]
      simp only [hd]

/-! ## Every run that waits for the appends returns the symbols of all units -/

theorem map_set_same {α β : Type} (f : α → β) (l : List α) (k : Nat) (t t' : α)
    (hk : l.get? k = some t) (h : f t' = f t) : (l.set k t').map f = l.map f := by
  induction l generalizing k with
  | nil => simp
  | cons x rest ih =>
    cases k with
    | zero =>
      simp only [List.get?_cons_zero, Option.some.injEq] at hk
      simp [hk, h]
    | succ n =>
      simp only [List.get?_cons_succ] at hk
      simp [ih n hk]

theorem flatMap_set_same {α β : Type} (g : α → List β) (l : List α) (k : Nat) (t t' : α)
    (hk : l.get? k = some t) (h : g t' = g t) : (l.set k t').flatMap g = l.flatMap g := by
  induction l generalizing k with
  | nil => simp
  | cons x rest ih =>
    cases k with
    | zero =>
      simp only [List.get?_cons_zero, Option.some.injEq] at hk
      simp [hk, h]
    | succ n =>
      simp only [List.get?_cons_succ] at hk
      simp [ih n hk]

theorem flatMap_set_perm {α β : Type} (g : α → List β) (l : List α) (k : Nat) (t t' : α)
    (hk : l.get? k = some t) (h : g t = []) :
    ((l.set k t').flatMap g).Perm (l.flatMap g ++ g t') := by
  induction l generalizing k with
  | nil => simp at hk
  | cons x rest ih =>
    cases k with
    | zero =>
      simp only [List.get?_cons_zero, Option.some.injEq] at hk
      simp only [List.set_cons_zero, List.flatMap_cons, hk, h, List.nil_append]
      exact List.perm_append_comm
    | succ n =>
      simp only [List.get?_cons_succ] at hk
      simp only [List.set_cons_succ, List.flatMap_cons, List.append_assoc]
      exact List.Perm.append_left _ (ih n hk)

theorem mem_of_get? {α : Type} (l : List α) (k : Nat) (t : α) (hk : l.get? k = some t) :
    t ∈ l := by
  induction l generalizing k with
  | nil => simp at hk
  | cons x rest ih =>
    cases k with
    | zero =>
      simp only [List.get?_cons_zero, Option.some.injEq] at hk
      simp [hk]
    | succ n =>
      simp only [List.get?_cons_succ] at hk
      exact List.mem_cons_of_mem _ (ih n hk)

theorem inv_task_same (ex : String → List symbol) (items : List item) (s s' : Run) (k : Nat)
    (t t' : Task) (hinv : RunInv ex items s) (hk : s.tasks.get? k = some t)
    (hpath : t'.path = t.path)
    (hb : t'.pc ≠ .acquire → t'.pc ≠ .body → t'.vsyms = ex t'.path)
    (hc : contrib t' = contrib t)
    (h1 : s'.pending = s.pending) (h2 : s'.closed = s.closed) (h3 : s'.mainPc = s.mainPc)
    (h4 : s'.tasks = s.tasks.set k t') (h5 : s'.syms = s.syms) : RunInv ex items s' := by
  obtain ⟨⟨consumed, hi1, hi2⟩, hib, hic, hid, hie⟩ := hinv
  refine ⟨⟨consumed, by rw [h1]; exact hi1, ?_⟩, ?_, ?_, ?_, ?_⟩
  · rw [h4, map_set_same Task.path _ k t t' hk hpath]
    exact hi2
  · intro x hx
    rw [h4] at hx
    rcases List.mem_or_eq_of_mem_set hx with h | h
    · exact hib x h
    · rw [h]
      exact hb
  · rw [h5, h4, flatMap_set_same contrib _ k t t' hk hc]
    exact hic
  · rw [h1, h2]
    exact hid
  · rw [h2, h3]
    exact hie

theorem inv_task_append (ex : String → List symbol) (items : List item) (s s' : Run) (k : Nat)
    (t t' : Task) (hinv : RunInv ex items s) (hk : s.tasks.get? k = some t)
    (hpath : t'.path = t.path)
    (hb : t'.pc ≠ .acquire → t'.pc ≠ .body → t'.vsyms = ex t'.path)
    (hc : contrib t = [])
    (h1 : s'.pending = s.pending) (h2 : s'.closed = s.closed) (h3 : s'.mainPc = s.mainPc)
    (h4 : s'.tasks = s.tasks.set k t') (h5 : s'.syms = s.syms ++ contrib t') :
    RunInv ex items s' := by
  obtain ⟨⟨consumed, hi1, hi2⟩, hib, hic, hid, hie⟩ := hinv
  refine ⟨⟨consumed, by rw [h1]; exact hi1, ?_⟩, ?_, ?_, ?_, ?_⟩
  · rw [h4, map_set_same Task.path _ k t t' hk hpath]
    exact hi2
  · intro x hx
    rw [h4] at hx
    rcases List.mem_or_eq_of_mem_set hx with h | h
    · exact hib x h
    · rw [h]
      exact hb
  · rw [h5, h4]
    exact (List.Perm.append_right _ hic).trans (flatMap_set_perm contrib _ k t t' hk hc).symm
  · rw [h1, h2]
    exact hid
  · rw [h2, h3]
    exact hie

theorem stepTask_inv (ex : String → List symbol) (items : List item) (s s' : Run) (k : Nat)
    (t : Task) (hinv : RunInv ex items s) (hk : s.tasks.get? k = some t)
    (h : stepTask ex s k t = some s') : RunInv ex items s' := by
  have hvs : t.pc ≠ .acquire → t.pc ≠ .body → t.vsyms = ex t.path :=
    hinv.2.1 t (mem_of_get? _ k t hk)
  unfold stepTask at h
  cases hpc : t.pc with
  | acquire =>
    simp only [hpc] at h
    split at h
    · cases h
      exact inv_task_same ex items s _ k t { t with pc := .body } hinv hk rfl
        (by intro _ h2; exact absurd rfl h2) (by simp [contrib, Task.appended, hpc])
        rfl rfl rfl rfl rfl
    · cases h
  | body =>
    simp only [hpc] at h
    cases h
    exact inv_task_same ex items s _ k t { t with pc := .deferDone, vsyms := ex t.path } hinv hk
      rfl (by intro _ _; rfl) (by simp [contrib, Task.appended, hpc]) rfl rfl rfl rfl rfl
  | deferDone =>
    simp only [hpc] at h
    cases h
    exact inv_task_same ex items s _ k t { t with pc := .deferAppend } hinv hk rfl
      (by intro _ _; exact hvs (by simp [hpc]) (by simp [hpc]))
      (by simp [contrib, Task.appended, hpc]) rfl rfl rfl rfl rfl
  | deferAppend =>
    simp only [hpc] at h
    cases h
    exact inv_task_append ex items s _ k t { t with pc := .deferRelease } hinv hk rfl
      (by intro _ _; exact hvs (by simp [hpc]) (by simp [hpc]))
      (by simp [contrib, Task.appended, hpc]) rfl rfl rfl rfl
      (by simp [contrib, Task.appended])
  | deferRelease =>
    simp only [hpc] at h
    cases h
    exact inv_task_same ex items s _ k t { t with pc := .finished } hinv hk rfl
      (by intro _ _; exact hvs (by simp [hpc]) (by simp [hpc]))
      (by simp [contrib, Task.appended, hpc]) rfl rfl rfl rfl rfl
  | finished =>
    simp only [hpc] at h
    cases h

theorem step_close (ex : String → List symbol) (s : Run) :
    step ex s .close
      = if s.pending = [] ∧ s.closed = false then some { s with closed := true } else none :=
  rfl

theorem step_endRange (ex : String → List symbol) (s : Run) :
    step ex s .endRange
      = if s.mainPc = .ranging ∧ s.closed = true then some { s with mainPc := .waiting }
        else none :=
  rfl

theorem step_wait (ex : String → List symbol) (s : Run) :
    step ex s .wait
      = if s.mainPc = .waiting ∧ s.wg = 0 then
          some { s with mainPc := .returned, result := some s.syms }
        else none :=
  rfl

theorem step_task (ex : String → List symbol) (s : Run) (k : Nat) :
    step ex s (.task k)
      = match s.tasks.get? k with
        | some t => stepTask ex s k t
        | none => none :=
  rfl

theorem step_send (ex : String → List symbol) (s : Run) (i : item) (rest : List item)
    (hm : s.mainPc = .ranging) (hp : s.pending = i :: rest) :
    step ex s .send
      = if i.importPath = "" then some { s with pending := rest }
        else some { s with pending := rest, all := s.all + 1, wg := s.wg + 1,
                           tasks := s.tasks ++ [{ path := i.importPath, pc := .acquire,
                                                  vsyms := [] }] } := by
  simp [step, hm, hp]

theorem step_send_none (ex : String → List symbol) (s : Run)
    (h : s.mainPc ≠ .ranging ∨ s.pending = []) : step ex s .send = none := by
  rcases h with h | h
  · cases hm : s.mainPc <;> simp [step, hm] at h ⊢
  · cases hm : s.mainPc <;> simp [step, hm, h]

theorem step_inv (ex : String → List symbol) (items : List item) (s s' : Run) (a : Action)
    (hinv : RunInv ex items s) (h : step ex s a = some s') : RunInv ex items s' := by
  cases a with
  | send =>
    obtain ⟨⟨consumed, hi1, hi2⟩, hib, hic, hid, hie⟩ := hinv
    by_cases hm : s.mainPc = .ranging
    · cases hp : s.pending with
      | nil =>
        rw [step_send_none ex s (Or.inr hp)] at h
        cases h
      | cons i rest =>
        have hcl : s.closed ≠ true := by
          intro hc
          rw [hid hc] at hp
          cases hp
        rw [step_send ex s i rest hm hp] at h
        by_cases hi : i.importPath = ""
        · rw [if_pos hi] at h
          cases h
          refine ⟨⟨consumed ++ [i], by simp [hi1, hp], ?_⟩, hib, hic, ?_, hie⟩
          · simp [List.filter_append, hi, hi2]
          · intro hc
            exact absurd hc hcl
        · rw [if_neg hi] at h
          cases h
          refine ⟨⟨consumed ++ [i], by simp [hi1, hp], ?_⟩, ?_, ?_, ?_, hie⟩
          · simp [List.filter_append, hi, hi2]
          · intro x hx
            rcases List.mem_append.1 hx with h1 | h1
            · exact hib x h1
            · rw [List.mem_singleton.1 h1]
              intro h2
              exact absurd rfl h2
          · simpa [contrib, Task.appended] using hic
          · intro hc
            exact absurd hc hcl
    · rw [step_send_none ex s (Or.inl hm)] at h
      cases h
  | close =>
    obtain ⟨⟨consumed, hi1, hi2⟩, hib, hic, hid, hie⟩ := hinv
    rw [step_close] at h
    by_cases hc : s.pending = [] ∧ s.closed = false
    · rw [if_pos hc] at h
      cases h
      exact ⟨⟨consumed, hi1, hi2⟩, hib, hic, fun _ => hc.1, fun _ => rfl⟩
    · rw [if_neg hc] at h
      cases h
  | endRange =>
    obtain ⟨⟨consumed, hi1, hi2⟩, hib, hic, hid, hie⟩ := hinv
    rw [step_endRange] at h
    by_cases hc : s.mainPc = .ranging ∧ s.closed = true
    · rw [if_pos hc] at h
      cases h
      exact ⟨⟨consumed, hi1, hi2⟩, hib, hic, hid, fun _ => hc.2⟩
    · rw [if_neg hc] at h
      cases h
  | wait =>
    obtain ⟨⟨consumed, hi1, hi2⟩, hib, hic, hid, hie⟩ := hinv
    rw [step_wait] at h
    by_cases hc : s.mainPc = .waiting ∧ s.wg = 0
    · rw [if_pos hc] at h
      cases h
      refine ⟨⟨consumed, hi1, hi2⟩, hib, hic, hid, fun _ => hie ?_⟩
      rw [hc.1]
      simp
    · rw [if_neg hc] at h
      cases h
  | task k =>
    rw [step_task] at h
    cases hk : s.tasks.get? k with
    | none =>
      rw [hk] at h
      cases h
    | some t =>
      rw [hk] at h
      exact stepTask_inv ex items s s' k t hinv hk h

theorem exec_inv (ex : String → List symbol) (items : List item) (trace : List Action)
    (s s' : Run) (hinv : RunInv ex items s) (h : exec ex s trace = some s') :
    RunInv ex items s' := by
  induction trace generalizing s with
  | nil =>
    simp only [exec, Option.some.injEq] at h
    rw [← h]
    exact hinv
  | cons a rest ih =>
    unfold exec at h
    split at h
    · rename_i s1 hs
      exact ih s1 (step_inv ex items s s1 a hinv hs) h
    · cases h

theorem exec_snoc (ex : String → List symbol) (trace : List Action) (a : Action) (s s' : Run)
    (h : exec ex s (trace ++ [a]) = some s') :
    ∃ s0, exec ex s trace = some s0 ∧ step ex s0 a = some s' := by
  induction trace generalizing s with
  | nil =>
    simp only [List.nil_append, exec] at h
    split at h
    · rename_i s1 hs
      simp only [exec, Option.some.injEq] at h
      exact ⟨s, rfl, by rw [hs, h]⟩
    · cases h
  | cons b rest ih =>
    simp only [List.cons_append, exec] at h
    split at h
    · rename_i s1 hs
      obtain ⟨s0, h1, h2⟩ := ih s1 h
      exact ⟨s0, by simp [exec, hs, h1], h2⟩
    · cases h

theorem initRun_inv (ex : String → List symbol) (items : List item) :
    RunInv ex items (initRun items) :=
  ⟨⟨[], by simp [initRun], by simp [initRun]⟩, by simp [initRun], by simp [initRun],
    by simp [initRun], by simp [initRun]⟩

theorem complete_run_perm (ex : String → List symbol) (items : List item)
    (trace : List Action) (s : Run)
    (h : exec ex (initRun items) (trace ++ [.wait]) = some s)
    (hall : ∀ t ∈ s.tasks, t.appended = true) :
    ∃ r, s.result = some r
      ∧ r.Perm (((items.filter (fun i => i.importPath ≠ "")).map item.importPath).flatMap ex) := by
  obtain ⟨s0, h1, h2⟩ := exec_snoc ex trace .wait _ s h
  obtain ⟨⟨consumed, hi1, hi2⟩, hib, hic, hid, hie⟩ :=
    exec_inv ex items trace _ s0 (initRun_inv ex items) h1
  rw [step_wait] at h2
  by_cases hc : s0.mainPc = .waiting ∧ s0.wg = 0
  · rw [if_pos hc] at h2
    cases h2
    refine ⟨s0.syms, rfl, ?_⟩
    have hpend : s0.pending = [] := hid (hie (by rw [hc.1]; simp))
    rw [hpend, List.append_nil] at hi1
    rw [hi1, ← hi2, List.flatMap_map]
    refine hic.trans ?_
    have : s0.tasks.flatMap contrib = s0.tasks.flatMap (fun t => ex t.path) := by
      apply List.flatMap_congr
      intro t ht
      have ha := hall t ht
      have hv := hib t ht (by
        intro e
        simp [Task.appended, e] at ha) (by
        intro e
        simp [Task.appended, e] at ha)
      simp [contrib, ha, hv]
    rw [this]
  · rw [if_neg hc] at h2
    cases h2

/-! ## The run in which the tasks finish one after the other -/

theorem get?_append_length {α : Type} (l : List α) (t : α) :
    (l ++ [t]).get? l.length = some t := by
  induction l with
  | nil => rfl
  | cons x rest ih => simp [ih]

theorem set_append_length {α : Type} (l : List α) (t t' : α) :
    (l ++ [t]).set l.length t' = l ++ [t'] := by
  induction l with
  | nil => rfl
  | cons x rest ih => simp [ih]

theorem exec_cons (ex : String → List symbol) (s s1 : Run) (a : Action) (rest : List Action)
    (h : step ex s a = some s1) : exec ex s (a :: rest) = exec ex s1 rest := by
  simp [exec, h]

theorem exec_task_seq (ex : String → List symbol) (done : List Task) (pending : List item)
    (syms : List symbol) (n : Nat) (p : String) (rest : List Action) :
    exec ex (loopState pending 1 (n + 1) n (done ++ [⟨p, .acquire, []⟩]) syms)
        (.task done.length :: .task done.length :: .task done.length :: .task done.length
          :: .task done.length :: rest)
      = exec ex (loopState pending 0 (n + 1) (n + 1) (done ++ [⟨p, .finished, ex p⟩])
          (syms ++ ex p)) rest := by
  unfold loopState
  rw [exec_cons ex _ _ _ _ (by
    rw [step_task]
    simp only [get?_append_length]
    simp only [stepTask]
    rfl)]
  simp only [Nat.lt_add_one, Nat.zero_lt_succ, if_true, set_append_length]
  rw [exec_cons ex _ _ _ _ (by
    rw [step_task]
    simp only [get?_append_length]
    simp only [stepTask]
    rfl)]
  simp only [set_append_length]
  rw [exec_cons ex _ _ _ _ (by
    rw [step_task]
    simp only [get?_append_length]
    simp only [stepTask]
    rfl)]
  simp only [set_append_length]
  rw [exec_cons ex _ _ _ _ (by
    rw [step_task]
    simp only [get?_append_length]
    simp only [stepTask]
    rfl)]
  simp only [set_append_length]
  rw [exec_cons ex _ _ _ _ (by
    rw [step_task]
    simp only [get?_append_length]
    simp only [stepTask]
    rfl)]
  simp only [set_append_length]

theorem step_send_skip (ex : String → List symbol) (i : item) (rest : List item) (n : Nat)
    (done : List Task) (syms : List symbol) (hi : i.importPath = "") :
    step ex (loopState (i :: rest) 0 n n done syms) .send
      = some (loopState rest 0 n n done syms) := by
  rw [step_send ex _ i rest rfl rfl, if_pos hi]
  rfl

theorem step_send_start (ex : String → List symbol) (i : item) (rest : List item) (n : Nat)
    (done : List Task) (syms : List symbol) (hi : ¬ i.importPath = "") :
    step ex (loopState (i :: rest) 0 n n done syms) .send
      = some (loopState rest 1 (n + 1) n (done ++ [⟨i.importPath, .acquire, []⟩]) syms) := by
  rw [step_send ex _ i rest rfl rfl, if_neg hi]
  rfl

theorem exec_seqMoves (ex : String → List symbol) (pending : List item) (done : List Task)
    (syms : List symbol) :
    exec ex (loopState pending 0 done.length done.length done syms)
        (seqMoves done.length pending ++ [.wait])
      = some (doneState (done ++ finishedTasks ex pending).length
          (done ++ finishedTasks ex pending)
          (syms ++ ((pending.filter (fun i => i.importPath ≠ "")).map
            item.importPath).flatMap ex)) := by
  induction pending generalizing done syms with
  | nil =>
    simp [seqMoves, exec, step, finishedTasks, loopState, doneState]
  | cons i rest ih =>
    by_cases hi : i.importPath = ""
    · simp only [seqMoves, hi, if_true, List.cons_append]
      rw [exec_cons ex _ _ _ _ (step_send_skip ex i rest _ done syms hi), ih done syms]
      simp [finishedTasks, hi]
    · simp only [seqMoves, hi, if_false, List.cons_append]
      rw [exec_cons ex _ _ _ _ (step_send_start ex i rest _ done syms hi), exec_task_seq]
      have := ih (done ++ [⟨i.importPath, .finished, ex i.importPath⟩]) (syms ++ ex i.importPath)
      simp only [List.length_append, List.length_singleton] at this
      rw [this]
      simp [finishedTasks, hi, List.append_assoc]
      congr 1
      omega

theorem sequential_run (ex : String → List symbol) (items : List item) :
    ∃ s, exec ex (initRun items) (seqMoves 0 items ++ [.wait]) = some s
      ∧ (∀ t ∈ s.tasks, t.appended = true)
      ∧ s.result = some (((items.filter (fun i => i.importPath ≠ "")).map
          item.importPath).flatMap ex) := by
  have h := exec_seqMoves ex items [] []
  refine ⟨_, h, ?_, by simp [doneState]⟩
  intro t ht
  simp only [doneState, List.nil_append, finishedTasks, List.mem_map] at ht
  obtain ⟨p, _, rfl⟩ := ht
  rfl

/-! ## The visitor: matching, kinds and fields -/

theorem syms_of_ite (v : visitor) (m : Bool) (d : symbol) :
    (if m = true then { v with syms := v.syms ++ [d] } else v).syms
      = v.syms ++ (if m = true then [d] else []) := by
  cases m <;> simp

theorem append_single_iff (l : List symbol) (m : Bool) (d : symbol) :
    ((∃ s, l ++ (if m = true then [d] else []) = l ++ [s]) ↔ m = true)
    ∧ (l ++ (if m = true then [d] else []) = l ↔ ¬ m = true) := by
  cases m <;> simp

/-- C3: for a function declaration and for a type declaration with name `n`, and a visitor with
query `q`, `Visit` appends one symbol exactly when `q` is a substring of `lowercase(n)` and
leaves the list as it is exactly when it is not; query `foo` matches declarations named
`FooBar` and `barFOO`, query `école` one named `ÉCOLE`, and the empty query matches every
declaration. -/
theorem visit_appends_iff_contains :
    (∀ (v : visitor) (Name : Ident) (parts : List Node),
      ((∃ s, (v.Visit (some (.FuncDecl Name parts))).1.syms = v.syms ++ [s])
          ↔ v.query.data <:+: (ToLower Name.Name).data)
      ∧ ((v.Visit (some (.FuncDecl Name parts))).1.syms = v.syms
          ↔ ¬ v.query.data <:+: (ToLower Name.Name).data))
    ∧ (∀ (v : visitor) (Name : Ident) (Typ : Node),
      ((∃ s, (v.Visit (some (.TypeSpec Name Typ))).1.syms = v.syms ++ [s])
          ↔ v.query.data <:+: (ToLower Name.Name).data)
      ∧ ((v.Visit (some (.TypeSpec Name Typ))).1.syms = v.syms
          ↔ ¬ v.query.data <:+: (ToLower Name.Name).data))
    ∧ (∀ (pkg : Package) (fset : FileSet) (syms : List symbol) (pos : Nat) (parts : List Node),
      ∃ s, ((visitor.mk pkg fset "foo" syms).Visit (some (.FuncDecl ⟨"FooBar", pos⟩ parts))).1.syms
        = syms ++ [s])
    ∧ (∀ (pkg : Package) (fset : FileSet) (syms : List symbol) (pos : Nat) (Typ : Node),
      ∃ s, ((visitor.mk pkg fset "foo" syms).Visit (some (.TypeSpec ⟨"barFOO", pos⟩ Typ))).1.syms
        = syms ++ [s])
    ∧ (∀ (pkg : Package) (fset : FileSet) (syms : List symbol) (pos : Nat) (parts : List Node),
      ∃ s, ((visitor.mk pkg fset "école" syms).Visit (some (.FuncDecl ⟨"ÉCOLE", pos⟩ parts))).1.syms
        = syms ++ [s])
    ∧ (∀ (pkg : Package) (fset : FileSet) (syms : List symbol) (Name : Ident) (parts : List Node),
      ∃ s, ((visitor.mk pkg fset "" syms).Visit (some (.FuncDecl Name parts))).1.syms
        = syms ++ [s])
    ∧ (∀ (pkg : Package) (fset : FileSet) (syms : List symbol) (Name : Ident) (Typ : Node),
      ∃ s, ((visitor.mk pkg fset "" syms).Visit (some (.TypeSpec Name Typ))).1.syms
        = syms ++ [s]) := by
  have hF : ∀ (v : visitor) (Name : Ident) (parts : List Node),
      ((∃ s, (v.Visit (some (.FuncDecl Name parts))).1.syms = v.syms ++ [s])
          ↔ v.query.data <:+: (ToLower Name.Name).data)
      ∧ ((v.Visit (some (.FuncDecl Name parts))).1.syms = v.syms
          ↔ ¬ v.query.data <:+: (ToLower Name.Name).data) := by
    intro v Name parts
    rw [Visit_funcDecl, syms_of_ite, ← isMatch_iff v.query (Name, "func")]
    exact append_single_iff _ _ _
  have hT : ∀ (v : visitor) (Name : Ident) (Typ : Node),
      ((∃ s, (v.Visit (some (.TypeSpec Name Typ))).1.syms = v.syms ++ [s])
          ↔ v.query.data <:+: (ToLower Name.Name).data)
      ∧ ((v.Visit (some (.TypeSpec Name Typ))).1.syms = v.syms
          ↔ ¬ v.query.data <:+: (ToLower Name.Name).data) := by
    intro v Name Typ
    rw [Visit_typeSpec, syms_of_ite, ← isMatch_iff v.query (Name, typeKind Typ)]
    exact append_single_iff _ _ _
  refine ⟨hF, hT, ?_, ?_, ?_, ?_, ?_⟩
  · intro pkg fset syms pos parts
    exact ((hF ⟨pkg, fset, "foo", syms⟩ ⟨"FooBar", pos⟩ parts).1).2
      ((Contains_iff (ToLower "FooBar") "foo").1 (by decide))
  · intro pkg fset syms pos Typ
    exact ((hT ⟨pkg, fset, "foo", syms⟩ ⟨"barFOO", pos⟩ Typ).1).2
      ((Contains_iff (ToLower "barFOO") "foo").1 (by decide))
  · intro pkg fset syms pos parts
    exact ((hF ⟨pkg, fset, "école", syms⟩ ⟨"ÉCOLE", pos⟩ parts).1).2
      ((Contains_iff (ToLower "ÉCOLE") "école").1 (by decide))
  · intro pkg fset syms Name parts
    exact ((hF ⟨pkg, fset, "", syms⟩ Name parts).1).2 ((Contains_iff _ _).1 (Contains_empty _))
  · intro pkg fset syms Name Typ
    exact ((hT ⟨pkg, fset, "", syms⟩ Name Typ).1).2 ((Contains_iff _ _).1 (Contains_empty _))

theorem typeKind_cases (Typ : Node) :
    (∃ m, Typ = .InterfaceType m ∧ typeKind Typ = "interface")
    ∨ ((∀ m, Typ ≠ .InterfaceType m) ∧ typeKind Typ = "type") := by
  cases Typ <;> simp [typeKind]

theorem typeKind_kind (Typ : Node) : typeKind Typ = "type" ∨ typeKind Typ = "interface" := by
  rcases typeKind_cases Typ with ⟨_, _, h2⟩ | ⟨_, h2⟩
  · exact Or.inr h2
  · exact Or.inl h2

mutual
theorem reached_kind : (n : Node) → ∀ d ∈ reached n,
    d.2 = "func" ∨ d.2 = "type" ∨ d.2 = "interface"
  | .IdentNode _ => by simp [reached]
  | .FuncDecl Name _ => by simp [reached]
  | .GenDecl Specs => by
    simpa [reached] using reachedList_kind Specs
  | .TypeSpec Name Typ => by
    intro d hd
    simp only [reached, List.mem_singleton] at hd
    rw [hd]
    exact Or.inr (typeKind_kind Typ)
  | .ValueSpec _ Values => by
    simpa [reached] using reachedList_kind Values
  | .InterfaceType Methods => by
    simpa [reached] using reachedList_kind Methods
  | .FuncLit Body => by
    simpa [reached] using reachedList_kind Body
  | .DeclStmt Decl => by
    simpa [reached] using reached_kind Decl
  | .FileNode _ Decls => by
    simpa [reached] using reachedList_kind Decls
  | .Other children => by
    simpa [reached] using reachedList_kind children
theorem reachedList_kind : (ns : List Node) → ∀ d ∈ reachedList ns,
    d.2 = "func" ∨ d.2 = "type" ∨ d.2 = "interface"
  | [] => by simp [reachedList]
  | n :: ns => by
    intro d hd
    simp only [reachedList, List.mem_append] at hd
    rcases hd with h | h
    · exact reached_kind n d h
    · exact reachedList_kind ns d h
end

theorem Visit_syms_cases (v : visitor) (node : Option Node) :
    (v.Visit node).1.syms = v.syms
    ∨ (∃ Name parts, node = some (.FuncDecl Name parts)
        ∧ (v.Visit node).1.syms = v.syms ++ [declSymbol v.pkg.Name v.fset (Name, "func")])
    ∨ (∃ Name Typ, node = some (.TypeSpec Name Typ)
        ∧ (v.Visit node).1.syms
            = v.syms ++ [declSymbol v.pkg.Name v.fset (Name, typeKind Typ)]) := by
  cases node with
  | none => exact Or.inl rfl
  | some n =>
    cases n with
    | FuncDecl Name parts =>
      rw [Visit_funcDecl, syms_of_ite]
      by_cases h : isMatch v.query (Name, "func") = true
      · exact Or.inr (Or.inl ⟨Name, parts, rfl, by simp [h]⟩)
      · exact Or.inl (by simp [h])
    | TypeSpec Name Typ =>
      rw [Visit_typeSpec, syms_of_ite]
      by_cases h : isMatch v.query (Name, typeKind Typ) = true
      · exact Or.inr (Or.inr ⟨Name, Typ, rfl, by simp [h]⟩)
      · exact Or.inl (by simp [h])
    | _ => exact Or.inl rfl

theorem Visit_appended (v : visitor) (node : Node) (s : symbol)
    (h : (v.Visit (some node)).1.syms = v.syms ++ [s]) :
    (∃ Name parts, node = .FuncDecl Name parts ∧ s = declSymbol v.pkg.Name v.fset (Name, "func"))
    ∨ (∃ Name Typ, node = .TypeSpec Name Typ
        ∧ s = declSymbol v.pkg.Name v.fset (Name, typeKind Typ)) := by
  rcases Visit_syms_cases v (some node) with h0 | ⟨Name, parts, hn, hs⟩ | ⟨Name, Typ, hn, hs⟩
  · rw [h0] at h
    simp at h
  · rw [hs] at h
    refine Or.inl ⟨Name, parts, Option.some.inj hn, ?_⟩
    simpa using h.symm
  · rw [hs] at h
    refine Or.inr ⟨Name, Typ, Option.some.inj hn, ?_⟩
    simpa using h.symm

theorem Visit_syms_new (w : visitor) (node : Option Node) :
    ∃ new, (w.Visit node).1.syms = w.syms ++ new
      ∧ ∀ t ∈ new, t.Kind = "func" ∨ t.Kind = "type" ∨ t.Kind = "interface" := by
  rcases Visit_syms_cases w node with h | ⟨Name, parts, _, h⟩ | ⟨Name, Typ, _, h⟩
  · exact ⟨[], by simp [h], by simp⟩
  · refine ⟨_, h, ?_⟩
    intro t ht
    rw [List.mem_singleton.1 ht]
    exact Or.inl rfl
  · refine ⟨_, h, ?_⟩
    intro t ht
    rw [List.mem_singleton.1 ht]
    exact Or.inr (typeKind_kind Typ)

/-- C4: for a declaration whose lowercased name contains the query, `Visit` records one symbol,
of kind `func` for a function declaration, of kind `interface` for a type declaration whose
type is an interface type, of kind `type` for every other type declaration; and whatever the
node, the symbols `Visit` adds, and those a whole traversal adds, have one of these three
kinds. -/
theorem visit_kind (v : visitor) (Name : Ident)
    (hmatch : Contains (ToLower Name.Name) v.query = true) :
    (∀ parts, ∃ s, (v.Visit (some (.FuncDecl Name parts))).1.syms = v.syms ++ [s]
        ∧ s.Kind = "func")
    ∧ (∀ m, ∃ s, (v.Visit (some (.TypeSpec Name (.InterfaceType m)))).1.syms = v.syms ++ [s]
        ∧ s.Kind = "interface")
    ∧ (∀ Typ, (∀ m, Typ ≠ .InterfaceType m) →
        ∃ s, (v.Visit (some (.TypeSpec Name Typ))).1.syms = v.syms ++ [s] ∧ s.Kind = "type")
    ∧ (∀ (w : visitor) (node : Option Node), ∃ new, (w.Visit node).1.syms = w.syms ++ new
        ∧ ∀ t ∈ new, t.Kind = "func" ∨ t.Kind = "type" ∨ t.Kind = "interface")
    ∧ (∀ (w : visitor) (n : Node), ∃ new, (Inspect w n).syms = w.syms ++ new
        ∧ ∀ t ∈ new, t.Kind = "func" ∨ t.Kind = "type" ∨ t.Kind = "interface") := by
  have hF : isMatch v.query (Name, "func") = true := hmatch
  have hT : ∀ Typ, isMatch v.query (Name, typeKind Typ) = true := fun _ => hmatch
  refine ⟨?_, ?_, ?_, Visit_syms_new, ?_⟩
  · intro parts
    refine ⟨declSymbol v.pkg.Name v.fset (Name, "func"), ?_, rfl⟩
    rw [Visit_funcDecl, syms_of_ite, hF]
    rfl
  · intro m
    refine ⟨declSymbol v.pkg.Name v.fset (Name, "interface"), ?_, rfl⟩
    rw [Visit_typeSpec, syms_of_ite, hT]
    rfl
  · intro Typ hTyp
    refine ⟨declSymbol v.pkg.Name v.fset (Name, typeKind Typ), ?_, ?_⟩
    · rw [Visit_typeSpec, syms_of_ite, hT]
      rfl
    · rcases typeKind_cases Typ with ⟨m, hm, _⟩ | ⟨_, h2⟩
      · exact absurd hm (hTyp m)
      · exact h2
  · intro w n
    refine ⟨_, by rw [Inspect_eq, visitor.record], ?_⟩
    intro t ht
    obtain ⟨d, hd, rfl⟩ := List.mem_map.1 ht
    exact reached_kind n d (List.mem_filter.1 hd).1

/-- The declarations `Widgets` as a function, `Widget` as an interface and as a struct type are
recorded by the example visitor, whose query is `wid`, with the kinds `func`, `interface` and
`type` (C4 at concrete nodes). -/
theorem visit_kind_witness :
    Contains (ToLower "Widget") exampleVisitor.query = true
    ∧ (exampleVisitor.Visit (some (.FuncDecl ⟨"Widget", 7⟩ []))).1.syms
        = [⟨"Widget", "func", "p", "a.go", 6, 0⟩]
    ∧ (exampleVisitor.Visit (some (.TypeSpec ⟨"Widget", 5⟩ (.InterfaceType [])))).1.syms
        = [⟨"Widget", "interface", "p", "a.go", 4, 0⟩]
    ∧ (exampleVisitor.Visit (some (.TypeSpec ⟨"Widget", 5⟩ (.Other [])))).1.syms
        = [⟨"Widget", "type", "p", "a.go", 4, 0⟩]
    ∧ (∀ parts, ∃ s, (exampleVisitor.Visit (some (.FuncDecl ⟨"Widget", 7⟩ parts))).1.syms
        = exampleVisitor.syms ++ [s] ∧ s.Kind = "func") :=
  ⟨by decide, by decide, by decide, by decide,
   (visit_kind exampleVisitor ⟨"Widget", 7⟩ (by decide)).1⟩

theorem addFile_names (filename : String) (src : File) (pkgs : List Package)
    (h : ∀ p ∈ pkgs, ∀ f ∈ p.Files, f.2.Name.Name = p.Name) :
    ∀ p ∈ addFile src.Name.Name filename src pkgs, ∀ f ∈ p.Files, f.2.Name.Name = p.Name := by
  induction pkgs with
  | nil =>
    intro p hp f hf
    simp only [addFile, List.mem_singleton] at hp
    subst hp
    simp only [List.mem_singleton] at hf
    subst hf
    rfl
  | cons q rest ih =>
    intro p hp f hf
    unfold addFile at hp
    split at hp
    · rename_i hq
      rcases List.mem_cons.1 hp with h1 | h1
      · subst h1
        rcases List.mem_append.1 hf with h2 | h2
        · exact h q (List.mem_cons_self _ _) f h2
        · rw [List.mem_singleton.1 h2]
          exact hq.symm
      · exact h p (List.mem_cons_of_mem _ h1) f hf
    · rcases List.mem_cons.1 hp with h1 | h1
      · subst h1
        exact h p (List.mem_cons_self _ _) f hf
      · exact ih (fun p hp => h p (List.mem_cons_of_mem _ hp)) p h1 f hf

theorem parseEntries_names (path : String) (entries : List Entry) (pkgs : List Package)
    (h : ∀ p ∈ pkgs, ∀ f ∈ p.Files, f.2.Name.Name = p.Name) :
    ∀ p ∈ parseEntries path entries pkgs, ∀ f ∈ p.Files, f.2.Name.Name = p.Name := by
  induction entries generalizing pkgs with
  | nil => simpa [parseEntries] using h
  | cons e rest ih =>
    cases e with
    | dir name err es => simpa [parseEntries] using ih pkgs h
    | file name src =>
      cases src with
      | none => simpa [parseEntries] using ih pkgs h
      | some src =>
        unfold parseEntries
        split
        · exact ih _ (addFile_names _ src pkgs h)
        · exact ih pkgs h

theorem ParseDir_names (fs : Entry) (path : String) :
    ∀ p ∈ ParseDir fs path, ∀ f ∈ p.Files, f.2.Name.Name = p.Name := by
  unfold ParseDir
  split
  · simp
  · exact parseEntries_names _ _ [] (by simp)

theorem map_filter_flatMap {α β γ : Type} (r : α → List β) (m : β → Bool) (g : β → γ)
    (l : List α) :
    ((l.flatMap r).filter m).map g = l.flatMap (fun a => ((r a).filter m).map g) := by
  induction l with
  | nil => rfl
  | cons a rest ih => simp [List.flatMap_cons, List.filter_append, ih]

/-- C5: for a function or type declaration with identifier `ident` whose lowercased name
contains the query, the symbol `Visit` records has the identifier's name, the name of the
visitor's package, the name of the file that holds the identifier's position, that position's
line minus one, and character 0; and in the loop of a task, which sets the visitor's package
before it inspects the files of a package, every recorded symbol carries the name in the
package clause of the file that holds the declaration. -/
theorem visit_symbol_fields (v : visitor) (ident : Ident)
    (hmatch : Contains (ToLower ident.Name) v.query = true) :
    (∀ parts, (v.Visit (some (.FuncDecl ident parts))).1.syms
        = v.syms ++ [⟨ident.Name, "func", v.pkg.Name, (v.fset.File ident.NamePos).Name,
                      (v.fset.File ident.NamePos).Line ident.NamePos - 1, 0⟩])
    ∧ (∀ Typ, (v.Visit (some (.TypeSpec ident Typ))).1.syms
        = v.syms ++ [⟨ident.Name, typeKind Typ, v.pkg.Name, (v.fset.File ident.NamePos).Name,
                      (v.fset.File ident.NamePos).Line ident.NamePos - 1, 0⟩])
    ∧ (∀ (fs : Entry) (fset : FileSet) (haveSrcDir : Bool) (dir query path : String),
        extract fs fset haveSrcDir dir query path
          = (ParseDir fs (unitDir haveSrcDir dir path)).flatMap (fun pkg =>
              pkg.Files.flatMap (fun f =>
                ((reached f.2.node).filter
                    (fun d => Contains (ToLower d.1.Name) query)).map (fun d =>
                  (⟨d.1.Name, d.2, f.2.Name.Name, (fset.File d.1.NamePos).Name,
                    (fset.File d.1.NamePos).Line d.1.NamePos - 1, 0⟩ : symbol))))) := by
  refine ⟨?_, ?_, ?_⟩
  · intro parts
    have hF : isMatch v.query (ident, "func") = true := hmatch
    rw [Visit_funcDecl, syms_of_ite, hF]
    rfl
  · intro Typ
    have hT : isMatch v.query (ident, typeKind Typ) = true := hmatch
    rw [Visit_typeSpec, syms_of_ite, hT]
    rfl
  · intro fs fset haveSrcDir dir query path
    rw [extract_eq, symsOfPackages]
    apply List.flatMap_congr
    intro pkg hpkg
    rw [map_filter_flatMap]
    apply List.flatMap_congr
    intro f hf
    have hn := ParseDir_names fs _ pkg hpkg f hf
    apply List.map_congr_left
    intro d _
    simp [declSymbol, hn]

/-- The function declaration `Widgets` at position 7 of `a.go` is recorded by the example
visitor, whose package is `p`, with line 6 and character 0, and the task for the unit `pkgA` of
the example tree records `DoThing` and `Widget` with the package `pkga` of their file's package
clause (C5 at a concrete node and a concrete unit). -/
theorem visit_symbol_fields_witness :
    Contains (ToLower "Widgets") exampleVisitor.query = true
    ∧ (exampleVisitor.Visit (some (.FuncDecl ⟨"Widgets", 7⟩ []))).1.syms
        = exampleVisitor.syms ++ [⟨"Widgets", "func", "p", "a.go", 6, 0⟩]
    ∧ extract exampleTree (fsetOf "f.go") false "/proj" "" "pkgA"
        = [⟨"DoThing", "func", "pkga", "f.go", 2, 0⟩,
           ⟨"Widget", "interface", "pkga", "f.go", 4, 0⟩] :=
  ⟨by decide,
   (visit_symbol_fields exampleVisitor ⟨"Widgets", 7⟩ (by decide)).1 [],
   by decide⟩

/-- C10 fails on `package p; var x = func() { type T int }`: the file has no package-level
function or type declaration, and the traversal with the empty query records the type `T`
declared inside the function literal. -/
theorem inspect_reports_nested_type :
    topLevel nestedTypeFile = []
    ∧ (Inspect ⟨⟨"p", []⟩, fsetOf "x.go", "", []⟩ nestedTypeFile.node).syms
        = [⟨"T", "type", "p", "x.go", 1, 0⟩] := by
  constructor
  · rfl
  · decide

/-! ## The crawler -/

theorem walkFiles_eq (root dir : String) (files : List Entry) :
    walkFiles root dir files
      = ((files.filter Entry.IsDir).map (fun fi => (Join [dir, fi.Name], fi))).flatMap
          (fun p => walkDir root p.1 p.2) := by
  induction files with
  | nil => simp [walkFiles]
  | cons fi rest ih =>
    cases fi with
    | file name src => simpa [walkFiles, Entry.IsDir] using ih
    | dir name err entries => simp [walkFiles, Entry.IsDir, Entry.Name, ih]

theorem walkDir_eq (root dir : String) (e : Entry) :
    walkDir root dir e
      = sent root dir e ++ (started root dir e).flatMap (fun p => walkDir root p.1 p.2) := by
  cases e with
  | file name src => simp [walkDir, sent, started, Entry.listErr]
  | dir name err entries =>
    cases err with
    | some x => simp [walkDir, sent, started, Entry.listErr]
    | none =>
      by_cases hp : pruned root dir = true
      · simp [walkDir, sent, started, hp]
      · simp [walkDir, sent, started, hp, Entry.listErr, walkFiles_eq]

theorem pruned_of_excluded (root dir : String)
    (h : (Base dir).data.head? = some '.' ∨ (Base dir).data.head? = some '_'
      ∨ Base dir = "testdata" ∨ ToSlash (TrimPrefix dir root) = "builtin") :
    pruned root dir = true := by
  unfold pruned
  rcases h with h | h | h | h
  · simp [h]
  · simp [h]
  · simp [h]
  · simp only [pkgOf, h]
    split <;> simp

/-- For a directory whose base name starts with `.` or `_` or is `testdata`, or whose import
path as `walkDir` computes it is `builtin`, the call `walkDir` sends no item and starts no walk,
so the whole walk from it sends nothing, whatever lies below it. -/
theorem excluded_dir_silent (root dir : String) (e : Entry)
    (h : (Base dir).data.head? = some '.' ∨ (Base dir).data.head? = some '_'
      ∨ Base dir = "testdata" ∨ ToSlash (TrimPrefix dir root) = "builtin") :
    sent root dir e = [] ∧ started root dir e = [] ∧ walkDir root dir e = [] := by
  have hp := pruned_of_excluded root dir h
  have h1 : sent root dir e = [] := by simp [sent, hp]
  have h2 : started root dir e = [] := by
    cases e with
    | file name src => rfl
    | dir name err entries => cases err <;> simp [started, hp]
  refine ⟨h1, h2, ?_⟩
  rw [walkDir_eq, h1, h2]
  rfl

/-- C2 fails for the root `/`: `allPackages` makes the root `//` of it (gosymbols.go:113), the
directory `/builtin` is walked as `/builtin`, from which the prefix `//` is not trimmed, so
the path computed for it is `/builtin`, not `builtin`; it is not pruned, it is sent on the
channel and the run returns the symbol of its file. Under the root `/w` the directory
`/w/builtin` gets the path `builtin`, is pruned, and the run returns the symbol of `/w/p`
only. -/
theorem builtin_walked_under_root_slash :
    Clean "/" ++ "/" = "//"
    ∧ Join ["//", "builtin"] = "/builtin"
    ∧ pkgOf "//" "/builtin" = "/builtin"
    ∧ pruned "//" "/builtin" = false
    ∧ allPackages rootTree "/"
        = [⟨"/builtin", none⟩, ⟨"/w", none⟩, ⟨"/w/builtin", none⟩, ⟨"/w/p", none⟩]
    ∧ (DoCoreMain rootTree (fsetOf "f.go") true "/" "").1
        = [⟨"Append", "func", "builtin", "f.go", 2, 0⟩, ⟨"Cap", "func", "builtin", "f.go", 2, 0⟩,
           ⟨"P", "func", "p", "f.go", 2, 0⟩]
    ∧ pruned "/w/" "/w/builtin" = true
    ∧ allPackages rootTree "/w" = [⟨"p", none⟩]
    ∧ (DoCoreMain rootTree (fsetOf "f.go") true "/w" "").1 = [⟨"P", "func", "p", "f.go", 2, 0⟩] := by
  refine ⟨by decide, by decide, by decide, by decide, by decide, by decide, by decide, by decide,
    by decide⟩


/-! ## A directory that cannot be listed -/

theorem ParseDir_of_error (fs : Entry) (path : String) (h : (ReadDir fs path).2 ≠ none) :
    ParseDir fs path = [] := by
  unfold ParseDir
  split
  · rfl
  · rename_i list heq
    rw [heq] at h
    exact absurd rfl h

theorem extract_of_error (fs : Entry) (fset : FileSet) (haveSrcDir : Bool)
    (dir query path : String) (h : (ReadDir fs (unitDir haveSrcDir dir path)).2 ≠ none) :
    extract fs fset haveSrcDir dir query path = [] := by
  simp [extract, ParseDir_of_error fs _ h, inspectPackages]

theorem found_unlistable (fs : Entry) (fset : FileSet) (haveSrcDir : Bool)
    (dir query : String) (syms : List symbol) (ns rel : List String) (name err : String)
    (entries : List Entry) (hp : ∀ n ∈ ns ++ rel, plainName n = true)
    (hd : descend fs (ns ++ rel) = some (.dir name (some err) entries))
    (hu : unitDir haveSrcDir dir (relPath rel) = absPath (ns ++ rel)) :
    found fs fset haveSrcDir dir query syms ⟨relPath rel, some err⟩ = syms := by
  unfold found
  split
  · rfl
  · simp only
    rw [extract_eq, hu, ParseDir_unlistable fs (ns ++ rel) hp name err entries hd]
    simp [symsOfPackages]

/-- C8: a directory that is not excluded and whose listing fails with `err` sends exactly one
item, with its import path (empty for the root) and `err`, and starts no walk although it has
entries; in a run on a tree, whether its units are resolved under the root or under the root's
`src`, the task dispatched for the directory parses that same directory, finds nothing since
it cannot be listed, and the shared list is what it was; for the root, whose path is empty, no
task is dispatched. -/
theorem unlistable_dir_reported (root dir name err : String) (entries : List Entry)
    (hnot : pruned root dir = false) :
    sent root dir (.dir name (some err) entries) = [⟨pkgOf root dir, some err⟩]
    ∧ started root dir (.dir name (some err) entries) = []
    ∧ walkDir root dir (.dir name (some err) entries) = [⟨pkgOf root dir, some err⟩]
    ∧ (∀ (fs : Entry) (fset : FileSet) (r rel : List String) (query : String)
        (syms : List symbol),
        r ≠ [] → rel ≠ [] → (∀ n ∈ r ++ rel, plainName n = true) →
        root = absPath r ++ "/" → dir = absPath (r ++ rel) →
        descend fs (r ++ rel) = some (.dir name (some err) entries) →
        pkgOf root dir = relPath rel
        ∧ lookup fs (unitDir false (absPath r) (pkgOf root dir))
            = some (.dir name (some err) entries)
        ∧ found fs fset false (absPath r) query syms ⟨pkgOf root dir, some err⟩ = syms
        ∧ ∀ d0, r = d0 ++ ["src"] →
            lookup fs (unitDir true (absPath d0) (pkgOf root dir))
              = some (.dir name (some err) entries)
            ∧ found fs fset true (absPath d0) query syms ⟨pkgOf root dir, some err⟩ = syms)
    ∧ (∀ (fs : Entry) (fset : FileSet) (haveSrcDir : Bool) (dir0 query : String)
        (syms : List symbol), found fs fset haveSrcDir dir0 query syms ⟨"", some err⟩ = syms) := by
  have h1 : sent root dir (.dir name (some err) entries) = [⟨pkgOf root dir, some err⟩] := by
    simp [sent, hnot, emit, Entry.listErr]
  have h2 : started root dir (.dir name (some err) entries) = [] := rfl
  refine ⟨h1, h2, ?_, ?_, ?_⟩
  · rw [walkDir_eq, h1, h2]
    rfl
  · intro fs fset r rel query syms hr hrel hp hroot hdir hd
    have hpr : ∀ n ∈ r, plainName n = true := fun n hn => hp n (List.mem_append_left _ hn)
    have hprel : ∀ n ∈ rel, plainName n = true := fun n hn => hp n (List.mem_append_right _ hn)
    have hpk : pkgOf root dir = relPath rel := by
      rw [hroot, hdir]
      exact pkgOf_abs r rel hr hrel
    have hu : unitDir false (absPath r) (relPath rel) = absPath (r ++ rel) :=
      Join_abs_rel r rel hrel hpr hprel
    refine ⟨hpk, ?_, ?_, ?_⟩
    · rw [hpk, hu, lookup_absPath fs _ hp, hd]
    · rw [hpk]
      exact found_unlistable fs fset false (absPath r) query syms r rel name err entries hp hd hu
    · intro d0 hd0
      have hpd0 : ∀ n ∈ d0, plainName n = true :=
        fun n hn => hpr n (by rw [hd0]; exact List.mem_append_left _ hn)
      have hu2 : unitDir true (absPath d0) (relPath rel) = absPath (r ++ rel) := by
        rw [unitDir, if_pos rfl, Join_abs_src_rel d0 rel hrel hpd0 hprel, hd0]
        simp
      refine ⟨?_, ?_⟩
      · rw [hpk, hu2, lookup_absPath fs _ hp, hd]
      · rw [hpk]
        exact found_unlistable fs fset true (absPath d0) query syms r rel name err entries hp hd
          hu2
  · intro fs fset haveSrcDir dir0 query syms
    simp [found]

/-- The directory `/proj/pkgB/sub` of the example tree, which holds a Go file declaring `Secret`
and a directory `x` and cannot be listed, is reported once with its error; its task parses
`/proj/pkgB/sub` and leaves the shared list as it is, and the run on `/proj` returns the
symbols of the other packages (C8 at a concrete directory). -/
theorem unlistable_dir_reported_witness :
    pruned "/proj/" "/proj/pkgB/sub" = false
    ∧ descend exampleTree ["proj", "pkgB", "sub"]
        = some (.dir "sub" (some "permission denied")
            [.file "s.go" (some ⟨⟨"sub", 1⟩, [.FuncDecl ⟨"Secret", 3⟩ []]⟩), .dir "x" none []])
    ∧ walkDir "/proj/" "/proj/pkgB/sub" (.dir "sub" (some "permission denied")
          [.file "s.go" (some ⟨⟨"sub", 1⟩, [.FuncDecl ⟨"Secret", 3⟩ []]⟩), .dir "x" none []])
        = [⟨"pkgB/sub", some "permission denied"⟩]
    ∧ found exampleTree (fsetOf "f.go") false "/proj" "" []
        ⟨pkgOf "/proj/" "/proj/pkgB/sub", some "permission denied"⟩ = []
    ∧ allPackages exampleTree "/proj"
        = [⟨"pkgA", none⟩, ⟨"pkgB", none⟩, ⟨"pkgB/sub", some "permission denied"⟩]
    ∧ (DoCoreMain exampleTree (fsetOf "f.go") true "/proj" "").1
        = [⟨"DoThing", "func", "pkga", "f.go", 2, 0⟩, ⟨"Widget", "interface", "pkga", "f.go", 4, 0⟩,
           ⟨"Gadget", "type", "pkgb", "f.go", 1, 0⟩] :=
  have h := unlistable_dir_reported "/proj/" "/proj/pkgB/sub" "sub" "permission denied"
    [.file "s.go" (some ⟨⟨"sub", 1⟩, [.FuncDecl ⟨"Secret", 3⟩ []]⟩), .dir "x" none []]
    (by decide)
  ⟨by decide, rfl, h.2.2.1,
   ((h.2.2.2.1 exampleTree (fsetOf "f.go") ["proj"] ["pkgB", "sub"] "" [] (by decide) (by decide)
      (by decide) (by decide) (by decide) rfl).2.2.1),
   by decide, by decide⟩

/-! ## The number of symbols of a run -/

/-- C9 fails on the example tree: below `/proj` exactly one declaration matches `rootfn` (it is
in a file of `/proj` itself) and exactly one matches `hidden` (it is in a `testdata`
directory), and the run returns no symbol for either query. -/
theorem count_misses_root_and_testdata :
    (lookup exampleTree "/proj").map (declCount "rootfn") = some 1
    ∧ (DoCoreMain exampleTree (fsetOf "f.go") true "/proj" "rootfn").1 = []
    ∧ (lookup exampleTree "/proj").map (declCount "hidden") = some 1
    ∧ (DoCoreMain exampleTree (fsetOf "f.go") true "/proj" "hidden").1 = [] := by
  refine ⟨by decide, by decide, by decide, by decide⟩

theorem DoCoreMain_fold (fs : Entry) (fset : FileSet) (haveSrcDir : Bool)
    (dir query : String) :
    (DoCoreMain fs fset haveSrcDir dir query).1
      = (((forEachPackage fs ⟨"", dir⟩ (nextHaveSrcDir fs haveSrcDir dir)).filter
            (fun i => i.importPath ≠ "")).map item.importPath).flatMap
          (extract fs fset (nextHaveSrcDir fs haveSrcDir dir) dir query) := by
  unfold DoCoreMain
  simp only [foldl_found, List.nil_append]

theorem treeFiles_count (query : String) (l : List File)
    (hplain : ∀ f ∈ l, plainFile f = true) :
    (l.map (reachCount query)).sum = (l.map (matchCount query)).sum := by
  congr 1
  exact List.map_congr_left (fun f hf => reachCount_of_plainFile query f (hplain f hf))

/-- C9, amended: in a fresh process, for a root `/n1/.../nk` in a tree, and when the crawled
files declare no function or type inside a package-level variable or constant declaration:
every run of the goroutines in which each task has appended when `wg.Wait()` returns
serializes a list that holds, in some order, the symbols of the run in which the tasks finish
one after the other, which is such a run, and the number of these symbols is the number of package-level function
and type declarations matching the query in the Go files that parse of the crawled
directories: those strictly below the root of the crawl (the `src` directory of the root when
it has one, the root itself otherwise) that neither are nor lie below a directory whose name
starts with `.` or `_` or is `testdata`, the directory `builtin` right under the root of the
crawl, or, for the directories below it, a directory that cannot be listed; none when the root
of the crawl itself has such a name or `src` is a file. When that number is one the result is
a single symbol, and a function and a type declared with the same identifier are both
recorded, as two symbols that differ in kind only. -/
theorem symbol_count (fs : Entry) (fset : FileSet) (ns : List String) (query : String)
    (hwf : wfEntry fs = true) (hns : ns ≠ []) (hp : ∀ n ∈ ns, plainName n = true)
    (hcolon : ':' ∉ (absPath ns).data)
    (hplain : ∀ f ∈ treeFiles fs ns, plainFile f = true) :
    (∀ (trace : List Action) (s : Run),
        exec (extract fs fset (nextHaveSrcDir fs true (absPath ns)) (absPath ns) query)
          (initRun (forEachPackage fs ⟨"", absPath ns⟩ (nextHaveSrcDir fs true (absPath ns))))
          (trace ++ [.wait]) = some s →
        (∀ t ∈ s.tasks, t.appended = true) →
        ∃ r, s.result = some r
          ∧ r.Perm (DoCoreMain fs fset true (absPath ns) query).1
          ∧ r.length = ((treeFiles fs ns).map (matchCount query)).sum)
    ∧ (∃ s,
        exec (extract fs fset (nextHaveSrcDir fs true (absPath ns)) (absPath ns) query)
          (initRun (forEachPackage fs ⟨"", absPath ns⟩ (nextHaveSrcDir fs true (absPath ns))))
          (seqMoves 0 (forEachPackage fs ⟨"", absPath ns⟩
            (nextHaveSrcDir fs true (absPath ns))) ++ [.wait]) = some s
        ∧ (∀ t ∈ s.tasks, t.appended = true)
        ∧ s.result = some (DoCoreMain fs fset true (absPath ns) query).1)
    ∧ (DoCoreMain fs fset true (absPath ns) query).1.length
        = ((treeFiles fs ns).map (matchCount query)).sum
    ∧ (((treeFiles fs ns).map (matchCount query)).sum = 1 →
        ∃ s, (DoCoreMain fs fset true (absPath ns) query).1 = [s])
    ∧ (∀ (v : visitor) (id : Ident) (parts : List Node) (Typ : Node),
        isMatch v.query (id, "func") = true →
        (InspectList v [.FuncDecl id parts, .GenDecl [.TypeSpec id Typ]]).syms
          = v.syms ++ [declSymbol v.pkg.Name v.fset (id, "func"),
                       declSymbol v.pkg.Name v.fset (id, typeKind Typ)]) := by
  have hlen : (DoCoreMain fs fset true (absPath ns) query).1.length
      = ((treeFiles fs ns).map (matchCount query)).sum := by
    rw [length_DoCoreMain_tree fs fset ns query hwf hns hp hcolon]
    exact treeFiles_count query _ hplain
  refine ⟨?_, ?_, hlen, ?_, ?_⟩
  · intro trace s h hall
    obtain ⟨r, h1, h2⟩ := complete_run_perm _ _ trace s h hall
    rw [← DoCoreMain_fold] at h2
    exact ⟨r, h1, h2, by rw [h2.length_eq, hlen]⟩
  · obtain ⟨s, h1, h2, h3⟩ := sequential_run
      (extract fs fset (nextHaveSrcDir fs true (absPath ns)) (absPath ns) query)
      (forEachPackage fs ⟨"", absPath ns⟩ (nextHaveSrcDir fs true (absPath ns)))
    rw [← DoCoreMain_fold] at h3
    exact ⟨s, h1, h2, h3⟩
  · intro h1
    rw [← hlen] at h1
    exact List.length_eq_one.1 h1
  · intro v id parts Typ hm
    have hm2 : isMatch v.query (id, typeKind Typ) = true := hm
    rw [InspectList_eq]
    simp [visitor.record, reachedList, reached, hm, hm2]

/-- The run on `/proj` of the example tree with query `wid`: a run of the goroutines in which
the three tasks append before `wg.Wait()` returns serializes one symbol, for the one matching
declaration in the crawled files (C9, amended, at a concrete tree). -/
theorem symbol_count_witness :
    wfEntry exampleTree = true
    ∧ (∀ f ∈ treeFiles exampleTree ["proj"], plainFile f = true)
    ∧ ((treeFiles exampleTree ["proj"]).map (matchCount "wid")).sum = 1
    ∧ (DoCoreMain exampleTree (fsetOf "f.go") true "/proj" "wid").1.length = 1
    ∧ (exec (extract exampleTree (fsetOf "f.go") false "/proj" "wid")
        (initRun [⟨"pkgA", none⟩, ⟨"pkgB", none⟩, ⟨"pkgB/sub", some "permission denied"⟩])
        [.send, .send, .task 0, .task 1, .send, .close, .task 1, .task 0, .task 2, .task 0,
         .task 0, .task 2, .task 1, .task 2, .endRange, .task 1, .task 0, .task 2, .task 1,
         .task 2, .wait]).map Run.result
        = some (some [⟨"Widget", "interface", "pkga", "f.go", 4, 0⟩]) :=
  have hw : wfEntry exampleTree = true := by decide
  have hp : ∀ f ∈ treeFiles exampleTree ["proj"], plainFile f = true := by decide
  have hc : ((treeFiles exampleTree ["proj"]).map (matchCount "wid")).sum = 1 := by decide
  ⟨hw, hp, hc,
   (symbol_count exampleTree (fsetOf "f.go") ["proj"] "wid" hw (by decide) (by decide)
      (by decide) hp).2.2.1.trans hc,
   by decide⟩

/-! ## The query and the command -/

/-- C6 fails on the example tree: `/gp` holds the declaration `FooBar`; `DoCoreMain` returns
nothing for the query `Foo` and one symbol for its lowercase `foo`. -/
theorem DoCoreMain_keeps_query_case :
    (DoCoreMain exampleTree (fsetOf "f.go") true "/gp" "Foo").1 = []
    ∧ (DoCoreMain exampleTree (fsetOf "f.go") true "/gp" (ToLower "Foo")).1
        = [⟨"FooBar", "func", "q", "f.go", 2, 0⟩] := by
  refine ⟨by decide, by decide⟩

theorem scheduleCalls_eq (fs : Entry) (dir : String) :
    scheduleCalls fs true dir
      = (List.range (dispatched fs true dir).length).map (fun k => (k + 1, k + 1)) :=
  rfl

/-- C6, amended: the command's `main` lowercases the query before it calls `DoCoreMain`: run on
a directory and a query `q` it leaves what it leaves run on the directory and `lowercase(q)`,
and what it leaves run on any query with the same lowercase form, and the slice it prints is the one `DoCoreMain` returns for `lowercase(q)`; `DoCoreMain` itself
matches the query as it is given, and returns no symbol for a query that lowercasing
changes. -/
theorem main_lowercases_query (fs : Entry) (fset : FileSet) (dir q : String) :
    main fs fset [dir, q] = main fs fset [dir, ToLower q]
    ∧ (∀ q2 : String, ToLower q2 = ToLower q → main fs fset [dir, q2] = main fs fset [dir, q])
    ∧ (main fs fset [dir, q]).json = some (DoCoreMain fs fset true dir (ToLower q)).1
    ∧ (∀ haveSrcDir : Bool, ToLower q ≠ q →
        (DoCoreMain fs fset haveSrcDir dir q).1 = []) := by
  refine ⟨?_, ?_, rfl, ?_⟩
  · unfold main
    simp only [ToLower_idem]
  · intro q2 h
    unfold main
    simp only [h]
  · intro haveSrcDir h
    rw [DoCoreMain_eq]
    simp [symsOfPackages_of_not_lower q h]

/-- The command run on `/gp` with the query `Foo` finds `FooBar`, and run on `/uni` with the
query `École` finds `ÉCOLE`, while `DoCoreMain` called with `Foo` finds nothing (C6, amended,
at a concrete tree). -/
theorem main_lowercases_query_witness :
    (main exampleTree (fsetOf "f.go") ["/gp", "Foo"]).json
        = some [⟨"FooBar", "func", "q", "f.go", 2, 0⟩]
    ∧ (main exampleTree (fsetOf "f.go") ["/uni", "École"]).json
        = some [⟨"ÉCOLE", "func", "ecole", "f.go", 2, 0⟩]
    ∧ ToLower "Foo" ≠ "Foo"
    ∧ (DoCoreMain exampleTree (fsetOf "f.go") true "/gp" "Foo").1 = [] :=
  have hu : ToLower "Foo" ≠ "Foo" := by decide
  ⟨by decide, by decide, hu,
   (main_lowercases_query exampleTree (fsetOf "f.go") "/gp" "Foo").2.2.2 true hu⟩

/-! ## The package variable `haveSrcDir` -/

/-- C7 fails for a run that follows a run on a root without `src`: `/gp` has a `src` entry, and
a first run in a fresh process resolves its unit `q` as `/gp/src/q`; the run on `/proj`, which
has no `src` entry, leaves `haveSrcDir` false; the run on `/gp` that follows it keeps it false,
walks `/gp` itself, resolves its units as `/gp/<importPath>` and returns another result. -/
theorem stale_haveSrcDir :
    statOk exampleTree (Join ["/gp", "src"]) = true
    ∧ nextHaveSrcDir exampleTree true "/gp" = true
    ∧ dispatched exampleTree true "/gp" = ["q"]
    ∧ unitDir (nextHaveSrcDir exampleTree true "/gp") "/gp" "q" = "/gp/src/q"
    ∧ (DoCoreMain exampleTree (fsetOf "f.go") true "/proj" "").2 = false
    ∧ nextHaveSrcDir exampleTree (DoCoreMain exampleTree (fsetOf "f.go") true "/proj" "").2 "/gp"
        = false
    ∧ dispatched exampleTree (DoCoreMain exampleTree (fsetOf "f.go") true "/proj" "").2 "/gp"
        = ["src", "src/q", "docs"]
    ∧ unitDir (nextHaveSrcDir exampleTree
          (DoCoreMain exampleTree (fsetOf "f.go") true "/proj" "").2 "/gp") "/gp" "docs"
        = "/gp/docs"
    ∧ (DoCoreMain exampleTree (fsetOf "f.go") true "/gp" "").1
        = [⟨"FooBar", "func", "q", "f.go", 2, 0⟩]
    ∧ (DoCoreMain exampleTree (fsetOf "f.go")
          (DoCoreMain exampleTree (fsetOf "f.go") true "/proj" "").2 "/gp" "").1
        = [⟨"FooBar", "func", "q", "f.go", 2, 0⟩, ⟨"Doc", "func", "docs", "f.go", 2, 0⟩] := by
  refine ⟨by decide, by decide, by decide, by decide, by decide, by decide, by decide, by decide,
    by decide, by decide⟩

/-! ## Serialization and the deferred calls -/

/-- C1 fails on the run of the example tree's `/gp`, whose one unit `q` holds the declaration
`FooBar`: after the item is received, the channel closed and the task has run its body and its
first deferred call `wg.Done()`, the counter `wg` is zero and the channel is closed while the
task has not appended; the loop then ends, `wg.Wait()` returns and the empty list is
serialized, although the task holds one symbol. -/
theorem serialized_before_append :
    forEachPackage exampleTree ⟨"", "/gp"⟩ true = [⟨"q", none⟩]
    ∧ exec (extract exampleTree (fsetOf "f.go") true "/gp" "") (initRun [⟨"q", none⟩])
        [.send, .close, .task 0, .task 0, .task 0]
        = some { pending := [], closed := true, mainPc := .ranging, wg := 0, sema := 1, all := 1,
                 count := 0,
                 tasks := [⟨"q", .deferAppend, [⟨"FooBar", "func", "q", "f.go", 2, 0⟩]⟩],
                 syms := [], result := none }
    ∧ Task.appended ⟨"q", .deferAppend, [⟨"FooBar", "func", "q", "f.go", 2, 0⟩]⟩ = false
    ∧ exec (extract exampleTree (fsetOf "f.go") true "/gp" "") (initRun [⟨"q", none⟩])
        [.send, .close, .task 0, .task 0, .task 0, .endRange, .wait]
        = some { pending := [], closed := true, mainPc := .returned, wg := 0, sema := 1, all := 1,
                 count := 0,
                 tasks := [⟨"q", .deferAppend, [⟨"FooBar", "func", "q", "f.go", 2, 0⟩]⟩],
                 syms := [], result := some [] }
    ∧ (DoCoreMain exampleTree (fsetOf "f.go") true "/gp" "").1
        = [⟨"FooBar", "func", "q", "f.go", 2, 0⟩] := by
  refine ⟨by decide, by decide, by decide, by decide, by decide⟩

end GoSymbols
